import Mathlib

/-!
Shallow embedding of the Small-World-Rand ANN index core
(src/similarity_search/src/method/small_world_rand.cc) and proofs about it.

The distance scalar `dist_t` (instantiated in the source at float, double
and int) is modelled by an arbitrary linear order `α`.  C++
`std::priority_queue`s are modelled as plain lists with explicit top/pop
operations; tie-breaking among equal keys is unspecified for the C++ binary
heap and the model fixes one deterministic choice.  The `vector<bool>`
visited bitsets are modelled as the `Finset ℕ` of their set bits.  Graph
loops are modelled as step functions driven by an explicit recursion bound
(`iter`); separate theorems show the bound chosen by each search suffices.

`MSWNode`, `Node::link`/`addFriend`, `SortArrBI` (sort_arr_bi.h) and the
`ElementMap` node-table type are declared in repository headers that are
not available; definitions for those parts are modelled from the spec and
marked as such in their doc comments.  Everything else is translated
directly from small_world_rand.cc; source line numbers are cited in the
doc comments.
-/

namespace SWRand

/-- Modelled from the spec: `MSWNode` is declared in the missing header
method/small_world_rand.h.  Per spec §3 a node holds a stable internal id,
a borrowed data-object reference (represented by the object's external id)
and an ordered friend list.  Friend pointers are represented by the
friends' internal ids; internal ids are unique in every state this
development builds or hypothesises. -/
structure MSWNode where
  nodeId : Nat
  objId : Int
  friends : List Nat
deriving DecidableEq, Repr

/-- Error outcomes of the modelled operations; each constructor corresponds
to one `throw`/`CHECK` site of the source (noted next to it).
`emptyHeapTop` marks the C++ undefined behaviour of calling `top()` on an
empty `std::priority_queue` (reachable only with `efConstruction = 0`,
resp. `NN = 0`); `fuelOut` marks exhaustion of the explicit recursion bound
of a modelled loop. -/
inductive SWErr where
  | notInitialized   -- "Bug: there is not entry point set!" / "Bug: the list of nodes shouldn't be empty!"
  | graphCorruption  -- "Bug: nodeId > maxInternalId" / "Bug: nodeId > ElList_.size()"
  | efSearchZero     -- CHECK_MSG(efSearch_ > 0, "efSearch should be > 0")
  | checkUsedFailed  -- CHECK(!e.used)
  | checkNodeIdRange -- CHECK(nodeId < ElList_.size())
  | emptyHeapTop     -- undefined behaviour: top() on an empty priority queue
  | fuelOut          -- recursion bound of the model exhausted
  | saveBadNodeId    -- SaveIndex: CHECK_MSG(nodeID >= 0 && nodeID < data_.size(), ...)
  | saveBadFriendId  -- SaveIndex: CHECK_MSG(nodeFriendID >= 0 && nodeFriendID < data_.size(), ...)
  | formatError      -- LoadIndex: stream-parse CHECKs ("wrong format", ReadField failures)
  | wrongMethod      -- LoadIndex: CHECK_MSG(methDesc == StrDesc(), ...)
  | dataMutation     -- LoadIndex: CHECK_MSGs carrying DATA_MUTATION_ERROR_MSG
  | loadBadFriendId  -- LoadIndex: CHECK_MSG(nodeFriendID >= 0 && nodeFriendID < data_.size(), ...)
  | loadNullPtr      -- LoadIndex: CHECK_MSG(pNode != NULL / pFriendNode != NULL, ...)
deriving DecidableEq, Repr

variable {α : Type} [LinearOrder α]

/-- Pop for a min-heap of (distance, node) pairs
(`priority_queue<EvaluatedMSWNodeReverse>`): the entry with the least key
together with the remaining entries, or `none` when empty. -/
def popMinP : List (α × Nat) → Option ((α × Nat) × List (α × Nat))
  | [] => none
  | x :: xs =>
    match popMinP xs with
    | none => some (x, [])
    | some (m, r) => if x.1 ≤ m.1 then some (x, xs) else some (m, x :: r)

/-- Pop for a max-heap of (distance, node) pairs
(`priority_queue<EvaluatedMSWNodeDirect>`): the entry with the greatest key
together with the remaining entries, or `none` when empty. -/
def popMaxP : List (α × Nat) → Option ((α × Nat) × List (α × Nat))
  | [] => none
  | x :: xs =>
    match popMaxP xs with
    | none => some (x, [])
    | some (m, r) => if m.1 ≤ x.1 then some (x, xs) else some (m, x :: r)

/-- Top of a max-heap of distances (`priority_queue<dist_t>::top`). -/
def topMaxD : List α → Option α
  | [] => none
  | x :: xs =>
    match topMaxD xs with
    | none => some x
    | some m => some (max x m)

/-- Pop of a max-heap of distances (`priority_queue<dist_t>::pop`):
removes one maximal element (the first one). -/
def popMaxD : List α → List α
  | [] => []
  | x :: xs =>
    match topMaxD xs with
    | none => []
    | some m => if m ≤ x then xs else x :: popMaxD xs

/-- Push-then-trim of a bounded max-heap of distances: the source pattern
`q.push(d); if (q.size() > cap) q.pop();` applied to `d :: q`. -/
def trimMaxD (cap : Nat) (q : List α) : List α :=
  if cap < q.length then popMaxD q else q

/-- Push-then-trim of a bounded max-heap of pairs: the source pattern
`q.emplace(d, v); if (q.size() > cap) q.pop();` applied to `(d, v) :: q`. -/
def trimMaxP (cap : Nat) (q : List (α × Nat)) : List (α × Nat) :=
  if cap < q.length then
    match popMaxP q with
    | some p => p.2
    | none => []
  else q

/-- The short-circuit admission test `q.size() < cap || d < q.top()` on a
max-heap of distances; `none` marks the undefined `top()` on an empty
queue (only reachable when `cap = 0`). -/
def admissionD (cap : Nat) (d : α) (q : List α) : Option Bool :=
  if q.length < cap then some true
  else
    match topMaxD q with
    | none => none
    | some t => some (decide (d < t))

/-- The short-circuit admission test
`q.size() < cap || q.top().getDistance() > d` on a max-heap of pairs;
`none` marks the undefined `top()` on an empty queue. -/
def admissionP (cap : Nat) (d : α) (q : List (α × Nat)) : Option Bool :=
  if q.length < cap then some true
  else
    match popMaxP q with
    | none => none
    | some (m, _) => some (decide (d < m.1))

/-- Generic driver for the modelled `while` loops: run `step` until it
returns a result (`Sum.inr`), for at most `n` iterations; `none` means the
iteration bound was exhausted. -/
def iter {σ ρ : Type} (step : σ → σ ⊕ ρ) : Nat → σ → Option ρ
  | 0, _ => none
  | n + 1, s =>
    match step s with
    | .inr r => some r
    | .inl s' => iter step n s'

/-- Dereference a node pointer (represented by an internal id) in a node
table and read its friend list (`getAllFriends`).  The per-node lock that
guards the snapshot in the source is irrelevant in the sequential model. -/
def adjOf (nodes : List MSWNode) (i : Nat) : List Nat :=
  match nodes.find? (fun nd => nd.nodeId == i) with
  | some nd => nd.friends
  | none => []

/-- Loop state of `searchForIndexing` (source lines 204-319): the
`candidateSet` min-heap, the `closestDistQueue` max-heap, the visited
bitset, and the `resultSet` max-heap being built for the caller. -/
structure SFIState (α : Type) where
  cands : List (α × Nat)
  closest : List α
  visited : Finset Nat
  resultSet : List (α × Nat)

/-- Body of the `searchForIndexing` neighbor scan for one not-yet-visited
friend (source lines 297-316): mark it visited, compute its distance,
admit it to `closestDistQueue`/`candidateSet` if it qualifies, and
independently to `resultSet`. -/
def sfiNeighborStep (dq : Nat → α) (NNv efC : Nat) (f : Nat) (s : SFIState α) :
    Except SWErr (SFIState α) :=
  let d := dq f
  let s1 : SFIState α := { s with visited := insert f s.visited }
  match admissionD efC d s1.closest with
  | none => .error .emptyHeapTop
  | some admc =>
    let s2 : SFIState α :=
      if admc then
        { s1 with
          closest := trimMaxD efC (d :: s1.closest)
          cands := (d, f) :: s1.cands }
      else s1
    match admissionP NNv d s2.resultSet with
    | none => .error .emptyHeapTop
    | some admr =>
      if admr then .ok { s2 with resultSet := trimMaxP NNv ((d, f) :: s2.resultSet) }
      else .ok s2

/-- Neighbor scan of one `searchForIndexing` iteration (source lines
287-317): range-check each friend against `maxInternalId`, skip visited
friends, process the fresh ones. -/
def sfiProcessNeighbors (dq : Nat → α) (maxId NNv efC : Nat) :
    List Nat → SFIState α → Except SWErr (SFIState α)
  | [], s => .ok s
  | f :: fs, s =>
    if maxId < f then .error .graphCorruption
    else if f ∈ s.visited then sfiProcessNeighbors dq maxId NNv efC fs s
    else
      match sfiNeighborStep dq NNv efC f s with
      | .error e => .error e
      | .ok s3 => sfiProcessNeighbors dq maxId NNv efC fs s3

/-- One iteration of the `searchForIndexing` main loop (source lines
255-318): stop when `candidateSet` is empty, read `lowerBound` from
`closestDistQueue.top()`, break at a local minimum, otherwise snapshot the
current node's friends, pop it, and scan the friends. -/
def sfiStep (adj : Nat → List Nat) (dq : Nat → α) (maxId NNv efC : Nat)
    (s : SFIState α) : SFIState α ⊕ Except SWErr (List (α × Nat)) :=
  match popMinP s.cands with
  | none => .inr (.ok s.resultSet)
  | some (curr, rest) =>
    match topMaxD s.closest with
    | none => .inr (.error .emptyHeapTop)
    | some lb =>
      if lb < curr.1 then .inr (.ok s.resultSet)
      else
        match sfiProcessNeighbors dq maxId NNv efC (adj curr.2) { s with cands := rest } with
        | .error e => .inr (.error e)
        | .ok s' => .inl s'

/-- Initialisation of `searchForIndexing` (source lines 224-253): null
entry-point check, distance to the entry, pushes into the three queues
with their trims, the `nodeId > maxInternalId` corruption check, and the
initial visited mark.  The source order (push `closest`, trim, then check
the id, then push `resultSet`, trim) is preserved. -/
def sfiInit (dq : Nat → α) (entry : Option Nat) (maxId NNv efC : Nat) :
    Except SWErr (SFIState α) :=
  match entry with
  | none => .error .notInitialized
  | some ep =>
    let d := dq ep
    let cands : List (α × Nat) := [(d, ep)]
    let closest := trimMaxD efC [d]
    if maxId < ep then .error .graphCorruption
    else
      let res := trimMaxP NNv [(d, ep)]
      .ok ⟨cands, closest, {ep}, res⟩

/-- Model of `SmallWorldRand::searchForIndexing` (source lines 202-319), driven by
an iteration bound of `maxInternalId + 2` (shown sufficient by the
termination development below).  Inputs: the friend-list view `adj` of the
current graph, the distance `dq i` from data object `i` to the query
object (`ProxyDistance` or `IndexTimeDistance` per `use_proxy_dist_`), the
entry point, `maxInternalId`, `NN_` and `efConstruction_`.  Returns the
contents of the `resultSet` max-heap. -/
def searchForIndexing (adj : Nat → List Nat) (dq : Nat → α) (entry : Option Nat)
    (maxId NNv efC : Nat) : Except SWErr (List (α × Nat)) :=
  match sfiInit dq entry maxId NNv efC with
  | .error e => .error e
  | .ok s0 =>
    match iter (sfiStep adj dq maxId NNv efC) (maxId + 2) s0 with
    | none => .error .fuelOut
    | some r => r

/-- The index state relevant to the claims: the node table `ElList_` in its
iteration order and the entry point `pEntryPoint_` (as the internal id of
the node it references; `none` is the null pointer of a fresh index). -/
structure SWState where
  elList : List MSWNode
  entry : Option Nat
deriving DecidableEq, Repr

/-- Modelled from the spec: `ElementMap` (the `obj_id → Node` table) is
declared in the missing header method/small_world_rand.h; per spec §3 it
maps `obj_id` to Node and enumerates nodes in a deterministic order.  It
is modelled as an association list sorted by object id with
`std::map::insert` semantics: inserting an existing key leaves the map
unchanged. -/
def elInsert (nd : MSWNode) : List MSWNode → List MSWNode
  | [] => [nd]
  | x :: xs =>
    if nd.objId < x.objId then nd :: x :: xs
    else if nd.objId = x.objId then x :: xs
    else x :: elInsert nd xs

/-- Modelled from the spec: `Node::link` / `addFriend` live in the missing
header.  Per spec §4.1 `link` adds each endpoint to the other's friend
list with no duplicate check; this is the half of `link(c, new)` that
appends the new node's id to `c`'s friend list inside the table. -/
def linkInto (elL : List MSWNode) (c newId : Nat) : List MSWNode :=
  elL.map fun nd =>
    if nd.nodeId = c then { nd with friends := nd.friends ++ [newId] } else nd

/-- The link loop of `add` (source lines 346-349): pop `resultSet`
(farthest first) and `link` each popped node with the new element,
accumulating the new element's own friend list in pop order.  The
structural bound `fuel` is instantiated with the heap size, which is
exact since each pop removes one element. -/
def linkLoopF (newId : Nat) : Nat → List (α × Nat) → List MSWNode → List Nat →
    List MSWNode × List Nat
  | 0, _, elL, fr => (elL, fr)
  | fuel + 1, rs, elL, fr =>
    match popMaxP rs with
    | none => (elL, fr)
    | some ((_, c), rest) => linkLoopF newId fuel rest (linkInto elL c newId) (fr ++ [c])

/-- Drain `resultSet`, linking every popped node to the new node. -/
def linkLoop (newId : Nat) (rs : List (α × Nat)) (elL : List MSWNode) :
    List MSWNode × List Nat :=
  linkLoopF newId rs.length rs elL []

/-- Model of `SmallWorldRand::add` (source lines 322-353): clear the new node's
friends (it starts empty here), fail with NotInitialized if the table is
empty, run the indexing search with the caller-provided `maxInternalId`,
link every returned candidate to the new node, then install the new node
in the table (`addCriticalSection`). -/
def addOp (D : Nat → Nat → α) (st : SWState) (newId : Nat) (newObjId : Int)
    (maxInternalId NNv efC : Nat) : Except SWErr SWState :=
  if st.elList.isEmpty then .error .notInitialized
  else
    match searchForIndexing (adjOf st.elList) (fun i => D i newId) st.entry
        maxInternalId NNv efC with
    | .error e => .error e
    | .ok rs =>
      let p := linkLoop newId rs st.elList
      .ok { st with elList := elInsert ⟨newId, newObjId, p.2⟩ p.1 }

/-- The sequential insertion loop of `CreateIndex` (source lines 142-146):
insert objects `id, id+1, ...` while `id < data_.size()`, each via
`add(node, data_.size())` — note the source passes `data_.size()` itself,
not `data_.size() - 1`, as `maxInternalId`.  The structural bound is
instantiated with the number of remaining objects, which is exact. -/
def createIndexLoopF (D : Nat → Nat → α) (dataIds : List Int) (NNv efC : Nat) :
    Nat → Nat → SWState → Except SWErr SWState
  | 0, _, st => .ok st
  | fuel + 1, id, st =>
    match addOp D st id (dataIds.getD id 0) dataIds.length NNv efC with
    | .error e => .error e
    | .ok st' => createIndexLoopF D dataIds NNv efC fuel (id + 1) st'

/-- The single-thread path of `SmallWorldRand::CreateIndex` (source lines
110-146, `indexThreadQty_ <= 1`): return immediately on empty data,
install a node for object 0 and capture the entry point from
`ElList_.begin()`, then insert objects `1 .. N-1` sequentially.  Parameter
parsing, logging and the progress bar do not affect the graph and are
omitted.  `dataIds` lists the external object ids of the data sequence in
order; `D i j` is the build-time distance between data objects `i` and
`j`. -/
def createIndex (D : Nat → Nat → α) (dataIds : List Int) (NNv efC : Nat) :
    Except SWErr SWState :=
  if dataIds.isEmpty then .ok ⟨[], none⟩
  else
    let el0 := elInsert ⟨0, dataIds.getD 0 0, []⟩ []
    let st : SWState := ⟨el0, (el0.head?).map (·.nodeId)⟩
    createIndexLoopF D dataIds NNv efC (dataIds.length - 1) 1 st

/-- The build-time distance selection (source lines 230-231 / 299-300):
`use_proxy_dist_ ? ProxyDistance : IndexTimeDistance`, fixed for the life
of the index. -/
def buildDist (useProxy : Bool) (Dfull Dproxy : Nat → Nat → α) : Nat → Nat → α :=
  if useProxy then Dproxy else Dfull

/-- Model of `CreateIndex` with the explicit parameter surface of the claims: the
data sequence (its object ids and the two candidate distance functions the
space supplies), `NN`, `efConstruction` and `useProxyDist`. -/
def createIndexFull (useProxy : Bool) (Dfull Dproxy : Nat → Nat → α)
    (dataIds : List Int) (NNv efC : Nat) : Except SWErr SWState :=
  createIndex (buildDist useProxy Dfull Dproxy) dataIds NNv efC

/-- Observable outcome of `SearchOld`: the sequence of
`CheckAndAddToResult` offers (distance, internal id of the offered
object), the sequence of internal ids whose `DistanceObjLeft` distance was
computed, in call order, and the error the search was aborted with, if
any.  Offers made before a throw are kept, since the C++ sink has already
received them when the exception propagates. -/
structure SearchOldRes (α : Type) where
  offers : List (α × Nat)
  computed : List Nat
  err : Option SWErr
deriving DecidableEq, Repr

/-- Loop state of `SearchOld` (source lines 483-570): the `candidateQueue`
min-heap, the `closestDistQueue` max-heap, the visited bitset, and the
observable offer/distance traces. -/
structure SOState (α : Type) where
  cands : List (α × Nat)
  closest : List α
  visited : Finset Nat
  offers : List (α × Nat)
  computed : List Nat

/-- Body of the `SearchOld` neighbor scan for one not-yet-visited friend
(source lines 552-566): compute its distance, mark it visited (recording
the computation in the trace), admit it to
`closestDistQueue`/`candidateQueue` if it qualifies, then offer it to the
result sink unconditionally.  An error carries the state reached so far,
since the C++ sink keeps offers made before a throw. -/
def soNeighborStep (dq : Nat → α) (efS : Nat) (f : Nat) (s : SOState α) :
    Except (SWErr × SOState α) (SOState α) :=
  let d := dq f
  let s1 : SOState α :=
    { s with visited := insert f s.visited, computed := s.computed ++ [f] }
  match admissionD efS d s1.closest with
  | none => .error (.emptyHeapTop, s1)
  | some admc =>
    let s2 : SOState α :=
      if admc then
        { s1 with
          closest := trimMaxD efS (d :: s1.closest)
          cands := (d, f) :: s1.cands }
      else s1
    .ok { s2 with offers := s2.offers ++ [(d, f)] }

/-- Neighbor scan of one `SearchOld` iteration (source lines 544-568):
range-check each friend against `ElList_.size()`, skip visited friends,
process the fresh ones. -/
def soProcessNeighbors (dq : Nat → α) (elN efS : Nat) :
    List Nat → SOState α → Except (SWErr × SOState α) (SOState α)
  | [], s => .ok s
  | f :: fs, s =>
    if elN ≤ f then .error (.graphCorruption, s)
    else if f ∈ s.visited then soProcessNeighbors dq elN efS fs s
    else
      match soNeighborStep dq efS f s with
      | .error e => .error e
      | .ok s3 => soProcessNeighbors dq elN efS fs s3

/-- One iteration of the `SearchOld` main loop (source lines 521-569):
stop when `candidateQueue` is empty, break at a local minimum against
`closestDistQueue.top()`, otherwise pop the current node and scan its
friends. -/
def soStep (adj : Nat → List Nat) (dq : Nat → α) (elN efS : Nat)
    (s : SOState α) : SOState α ⊕ SearchOldRes α :=
  match popMinP s.cands with
  | none => .inr ⟨s.offers, s.computed, none⟩
  | some (curr, rest) =>
    match topMaxD s.closest with
    | none => .inr ⟨s.offers, s.computed, some .emptyHeapTop⟩
    | some lb =>
      if lb < curr.1 then .inr ⟨s.offers, s.computed, none⟩
      else
        match soProcessNeighbors dq elN efS (adj curr.2) { s with cands := rest } with
        | .error (e, s') => .inr ⟨s'.offers, s'.computed, some e⟩
        | .ok s' => .inl s'

/-- Model of `SmallWorldRand::SearchOld` (source lines 482-570): empty-table early
return, the `efSearch > 0` check, null entry-point check; the entry's
distance is computed and offered to the sink before it enters the queues
(source line 506), then its id is range-checked and marked visited, and
the main loop runs.  `dq i` is `query->DistanceObjLeft(data of node i)`;
`elN` is `ElList_.size()`; `efS` is `efSearch_`.  The iteration bound
`elN + 1` is shown sufficient below. -/
def searchOld (adj : Nat → List Nat) (dq : Nat → α) (elN : Nat)
    (entry : Option Nat) (efS : Nat) : SearchOldRes α :=
  if elN = 0 then ⟨[], [], none⟩
  else if efS = 0 then ⟨[], [], some .efSearchZero⟩
  else
    match entry with
    | none => ⟨[], [], some .notInitialized⟩
    | some ep =>
      let d := dq ep
      let offers0 : List (α × Nat) := [(d, ep)]
      let computed0 : List Nat := [ep]
      if elN ≤ ep then ⟨offers0, computed0, some .graphCorruption⟩
      else
        let s0 : SOState α := ⟨[(d, ep)], [d], {ep}, offers0, computed0⟩
        match iter (soStep adj dq elN efS) (elN + 1) s0 with
        | none => ⟨[], [], some .fuelOut⟩
        | some r => r

/-- Modelled from the spec: the entries of `SortArrBI` (sort_arr_bi.h is
not available).  Per spec §2/C9 the buffer holds (key, value, used)
triples kept in ascending key order. -/
structure BufEntry (α : Type) where
  key : α
  nodeId : Nat
  used : Bool
deriving DecidableEq, Repr

/-- Insert an (unused) entry into the sorted buffer at its sorted
position, after any entries with an equal key. -/
def bufInsert (k : α) (v : Nat) : List (BufEntry α) → List (BufEntry α)
  | [] => [⟨k, v, false⟩]
  | e :: es => if k < e.key then ⟨k, v, false⟩ :: e :: es else e :: bufInsert k v es

/-- The index at which `bufInsert` places the new entry. -/
def bufInsertIdx (k : α) : List (BufEntry α) → Nat
  | [] => 0
  | e :: es => if k < e.key then 0 else bufInsertIdx k es + 1

/-- Modelled from the spec: `SortArrBI::top_key` — the key at the
capacity-th smallest slot when the buffer is full, else `+∞` (`none`). -/
def bufTopKey (cap : Nat) (buf : List (BufEntry α)) : Option α :=
  if buf.length = cap then (buf.getLast?).map (·.key) else none

/-- Modelled from the spec: `SortArrBI::push_or_replace_non_empty_exp` —
if the buffer is at capacity and the key is ≥ `top_key`, drop the item
(returning the capacity as an out-of-range insertion index, which the
caller's `insIndex < currElem` test ignores); otherwise insert at the
sorted position, evicting the last element when over capacity, and return
the insertion index. -/
def pushOrReplace (cap : Nat) (k : α) (v : Nat) (buf : List (BufEntry α)) :
    Nat × List (BufEntry α) :=
  match bufTopKey cap buf with
  | some t =>
    if t ≤ k then (cap, buf)
    else (bufInsertIdx k buf, (bufInsert k v buf).take cap)
  | none => (bufInsertIdx k buf, (bufInsert k v buf).take cap)

/-- Modelled from the spec: `SortArrBI::merge_with_sorted_items` — merge a
sorted batch into the buffer keeping size ≤ capacity, returning the
smallest insertion index touched (the capacity when nothing was
inserted). -/
def mergeWithSortedItems (cap : Nat) (items : List (α × Nat))
    (buf : List (BufEntry α)) : Nat × List (BufEntry α) :=
  items.foldl
    (fun acc it =>
      (min acc.1 (pushOrReplace cap it.1 it.2 acc.2).1,
        (pushOrReplace cap it.1 it.2 acc.2).2))
    (cap, buf)

/-- The small-batch insertion loop of `SearchV1Merge` (source lines
461-467): `push_or_replace` each staged item in order, pulling the cursor
back whenever an insertion lands before it. -/
def pushLoop (cap : Nat) : List (α × Nat) → Nat × List (BufEntry α) →
    Nat × List (BufEntry α)
  | [], st => st
  | it :: its, (cur, buf) =>
    let p := pushOrReplace cap it.1 it.2 buf
    pushLoop cap its (if p.1 < cur then p.1 else cur, p.2)

/-- Sorted insertion used to model `std::sort` over the staged batch
(ordering among equal keys is unspecified in the source). -/
def insSortKey (it : α × Nat) : List (α × Nat) → List (α × Nat)
  | [] => [it]
  | x :: xs => if it.1 ≤ x.1 then it :: x :: xs else x :: insSortKey it xs

/-- Model of `std::sort(itemBuff.begin(), itemBuff.begin() + itemQty)` (source line
451), modelled as insertion sort by key. -/
def sortBatch : List (α × Nat) → List (α × Nat)
  | [] => []
  | x :: xs => insSortKey x (sortBatch xs)

/-- Number of un-used entries of the buffer (the termination measure
component for the V1Merge loop). -/
def unusedCount (buf : List (BufEntry α)) : Nat :=
  (buf.filter fun e => e.used == false).length

/-- Model of `e.used = true` for the entry at index `i` (source line 417). -/
def markUsed (buf : List (BufEntry α)) (i : Nat) : List (BufEntry α) :=
  match buf.get? i with
  | none => buf
  | some e => buf.set i { e with used := true }

/-- The cursor advance loop of `SearchV1Merge` (source lines 471-473):
`while (currElem < size && queueData[currElem].used) ++currElem;`.  The
structural bound is `buf.length - i`, which keeps the invariant
`bound = length - cursor` along the recursion, so exhaustion can only
happen past the end of the buffer. -/
def skipUsedF (buf : List (BufEntry α)) : Nat → Nat → Nat
  | 0, i => i
  | fuel + 1, i =>
    match buf.get? i with
    | some e => if e.used then skipUsedF buf fuel (i + 1) else i
    | none => i

/-- Advance the cursor past used entries. -/
def skipUsed (buf : List (BufEntry α)) (i : Nat) : Nat :=
  skipUsedF buf (buf.length - i) i

/-- Neighbor scan of one `SearchV1Merge` iteration (source lines 434-447):
range-check each friend against `ElList_.size()`; for a not-yet-visited
friend compute its distance, mark it visited and stage it into the local
batch when `sortedArr.size() < efSearch || d < topKey` (both `size` and
`topKey` are snapshots taken before the scan; the buffer does not change
during it).  Returns the new visited set and the staged batch in stage
order. -/
def v1Neighbors (dq : Nat → α) (elN : Nat) (underEf : Bool) (tk : Option α) :
    List Nat → Finset Nat → Except SWErr (Finset Nat × List (α × Nat))
  | [], vis => .ok (vis, [])
  | f :: fs, vis =>
    if elN ≤ f then .error .checkNodeIdRange
    else if f ∈ vis then v1Neighbors dq elN underEf tk fs vis
    else
      let d := dq f
      let stage := underEf || tk.elim true fun t => decide (d < t)
      match v1Neighbors dq elN underEf tk fs (insert f vis) with
      | .error e => .error e
      | .ok (vis', staged) => .ok (vis', if stage then (d, f) :: staged else staged)

/-- Loop state of `SearchV1Merge` (source lines 405-474): the sorted
buffer (`sortedArr` and its `queueData`), the visited bitset and the
cursor `currElem`. -/
structure V1State (α : Type) where
  buf : List (BufEntry α)
  visited : Finset Nat
  cur : Nat

/-- One iteration of the `SearchV1Merge` main loop (source lines 414-474):
check the loop condition `currElem < min(size, efSearch)`; read the
cursor entry, `CHECK(!e.used)`, mark it used, advance the cursor; scan the
current node's friends; sort the staged batch and merge it into the
buffer (bulk merge above the 100-item threshold, per-item pushes below),
pulling the cursor back to the smallest insertion index when it lands
before the cursor; finally advance the cursor past used entries. -/
def v1Step (adj : Nat → List Nat) (dq : Nat → α) (elN efS cap : Nat)
    (s : V1State α) : V1State α ⊕ Except SWErr (List (BufEntry α)) :=
  if s.cur < min s.buf.length efS then
    match s.buf.get? s.cur with
    | none => .inr (.error .fuelOut)   -- unreachable: cur < buf.length
    | some e =>
      if e.used then .inr (.error .checkUsedFailed)
      else
        let buf1 := markUsed s.buf s.cur
        let cur1 := s.cur + 1
        let tk := bufTopKey cap buf1
        match v1Neighbors dq elN (decide (buf1.length < efS)) tk (adj e.nodeId)
            s.visited with
        | .error err => .inr (.error err)
        | .ok (visited', staged) =>
          let batch := sortBatch staged
          let p :=
            if 100 < staged.length then
              let m := mergeWithSortedItems cap batch buf1
              (if m.1 < cur1 then m.1 else cur1, m.2)
            else pushLoop cap batch (cur1, buf1)
          let cur3 := skipUsed p.2 p.1
          .inl ⟨p.2, visited', cur3⟩
  else .inr (.ok s.buf)

/-- The core of `SmallWorldRand::SearchV1Merge` (source lines 374-474) up
to but not including the final emission loop: empty-table early return
(`none`), the `efSearch > 0` check, null entry-point check, buffer of
capacity `max(efSearch, k)` seeded with the entry point
(`push_unsorted_grow`), the entry id range check and visited mark, then
the main loop, returning the final buffer.  The iteration bound `elN + 1`
is shown sufficient below. -/
def v1Run (adj : Nat → List Nat) (dq : Nat → α) (elN : Nat)
    (entry : Option Nat) (efS k : Nat) :
    Except SWErr (Option (List (BufEntry α))) :=
  if elN = 0 then .ok none
  else if efS = 0 then .error .efSearchZero
  else
    match entry with
    | none => .error .notInitialized
    | some ep =>
      let cap := max efS k
      let d := dq ep
      let buf0 : List (BufEntry α) := [⟨d, ep, false⟩]
      if elN ≤ ep then .error .checkNodeIdRange
      else
        match iter (v1Step adj dq elN efS cap) (elN + 1) (⟨buf0, {ep}, 0⟩ : V1State α) with
        | none => .error .fuelOut
        | some (.error e) => .error e
        | some (.ok buf) => .ok (some buf)

/-- The emission loop of `SearchV1Merge` (source lines 476-478): offer
`buffer[i]` for `i < GetK() && i < size` to the result sink, i.e. the
first `min(k, size)` entries in buffer order. -/
def emit (k : Nat) (buf : List (BufEntry α)) : List (α × Nat) :=
  (buf.take (min k buf.length)).map fun e => (e.key, e.nodeId)

/-- Model of `SmallWorldRand::SearchV1Merge` (source lines 373-479): the core run
followed by the emission loop; the empty-table early return emits
nothing. -/
def searchV1Merge (adj : Nat → List Nat) (dq : Nat → α) (elN : Nat)
    (entry : Option Nat) (efS k : Nat) : Except SWErr (List (α × Nat)) :=
  match v1Run adj dq elN entry efS k with
  | .error e => .error e
  | .ok none => .ok []
  | .ok (some buf) => .ok (emit k buf)

/-- One text line of the save file, structured: `WriteField`/`ReadField`
lines for the method descriptor, the `NN` field and the trailing line
count, one line per node (`internal_id ":" obj_id ":" friends...`), and
the empty terminator line.  A line whose text would not parse as the
expected shape is represented by a constructor mismatch, which the loader
maps to the same failure as the corresponding C++ stream-parse `CHECK`. -/
inductive FileLine where
  | methodDesc (s : String)
  | nnField (n : Nat)
  | nodeLine (nodeId : Nat) (objId : Int) (friends : List Nat)
  | blank
  | lineQty (n : Nat)
deriving DecidableEq, Repr

/-- Modelled from the spec: the value of `METH_SMALL_WORLD_RAND`
(`StrDesc()`), defined in a header that is not available.  Its exact text
is irrelevant: the loader compares it against the same constant. -/
def methodName : String := "small_world_rand"

/-- The node-line loop of `SaveIndex` (source lines 582-599): one line per
table entry in iteration order, with the range `CHECK_MSG`s on the node id
and on every friend id. -/
def saveNodeLines (N : Nat) : List MSWNode → Except SWErr (List FileLine)
  | [] => .ok []
  | nd :: rest =>
    if nd.nodeId < N then
      if nd.friends.all (· < N) then
        match saveNodeLines N rest with
        | .error e => .error e
        | .ok ls => .ok (.nodeLine nd.nodeId nd.objId nd.friends :: ls)
      else .error .saveBadFriendId
    else .error .saveBadNodeId

/-- Model of `SmallWorldRand::SaveIndex` (source lines 572-603): the method
descriptor and `NN` fields, the node lines, the empty terminator, and the
trailing line count `lineNum + 1` where `lineNum = 2 + #nodes + 1`. -/
def saveIndex (N NNv : Nat) (elL : List MSWNode) : Except SWErr (List FileLine) :=
  match saveNodeLines N elL with
  | .error e => .error e
  | .ok ls =>
    .ok ([.methodDesc methodName, .nnField NNv] ++ ls ++
      [.blank, .lineQty (ls.length + 4)])

/-- A node object allocated by `LoadIndex` pass 0: its id, object id, and
friend pointers represented as indexes into the allocation-order heap. -/
structure LoadCell where
  nodeId : Nat
  objId : Int
  friendRefs : List Nat
deriving DecidableEq, Repr

/-- State threaded through the `LoadIndex` passes: the allocation-order
heap of created nodes, `ptrMapper` (internal id → heap index), the
`ElList_` table (`obj_id → node`, std::map order) and the line counter. -/
structure LoadSt where
  heap : List LoadCell
  ptrMap : List (Option Nat)
  elTab : List (Int × Nat)
  lineNum : Nat
deriving DecidableEq, Repr

/-- Model of `std::map::insert` for the loader's `ElList_` (`obj_id → heap index`):
sorted insertion that leaves the map unchanged when the key exists. -/
def elInsertP (key : Int) (v : Nat) : List (Int × Nat) → List (Int × Nat)
  | [] => [(key, v)]
  | (k, x) :: rest =>
    if key < k then (key, v) :: (k, x) :: rest
    else if key = k then (k, x) :: rest
    else (k, x) :: elInsertP key v rest

/-- Model of `pNode->addFriend(pFriendNode, false)` (source line 664): append one
friend pointer to heap cell `p`, no duplicate check. -/
def heapAddFriend (heap : List LoadCell) (p pf : Nat) : List LoadCell :=
  match heap.get? p with
  | some c => heap.set p { c with friendRefs := c.friendRefs ++ [pf] }
  | none => heap

/-- The friend-reading loop of `LoadIndex` pass 1 (source lines 656-665):
for each friend id, the range `CHECK_MSG`, the `ptrMapper` null check, and
the `addFriend` call on cell `p`. -/
def addFriendsRun (N : Nat) (ptrMap : List (Option Nat)) (p : Nat) :
    List Nat → List LoadCell → Except SWErr (List LoadCell)
  | [], heap => .ok heap
  | f :: fs, heap =>
    if f < N then
      match ptrMap.getD f none with
      | some pf => addFriendsRun N ptrMap p fs (heapAddFriend heap p pf)
      | none => .error .loadNullPtr
    else .error .loadBadFriendId

/-- The `while (getline(...))` loop of `LoadIndex` (source lines 624-671),
for one pass: stop (counting the line) at an empty line, stop without
counting at end of file; on a node line run the shared parse and
data-mutation checks, then in pass 0 allocate the node, record it in
`ptrMapper` and insert it into the table, and in pass 1 look the node up
in `ptrMapper` and append its friends.  Any other line shape fails the
stream-parse `CHECK`s. -/
def loadScan (dataIds : List Int) (pass1 : Bool) :
    List FileLine → LoadSt → Except SWErr (LoadSt × List FileLine)
  | [], st => .ok (st, [])
  | .nodeLine nodeId objId friends :: rest, st =>
    if nodeId < dataIds.length then
      if dataIds.getD nodeId 0 = objId then
        if pass1 then
          match st.ptrMap.getD nodeId none with
          | none => .error .loadNullPtr
          | some p =>
            match addFriendsRun dataIds.length st.ptrMap p friends st.heap with
            | .error e => .error e
            | .ok heap' =>
              loadScan dataIds pass1 rest
                { st with heap := heap', lineNum := st.lineNum + 1 }
        else
          loadScan dataIds pass1 rest
            { heap := st.heap ++ [⟨nodeId, objId, []⟩]
              ptrMap := st.ptrMap.set nodeId (some st.heap.length)
              elTab := elInsertP objId st.heap.length st.elTab
              lineNum := st.lineNum + 1 }
      else .error .dataMutation
    else .error .dataMutation
  | .blank :: rest, st => .ok ({ st with lineNum := st.lineNum + 1 }, rest)
  | _ :: _, _ => .error .formatError

/-- One full pass of `LoadIndex` (source lines 609-678): read and check
the method descriptor, read `NN`, scan the data lines, then read the
trailing line count and check it against the number of lines read
(`DATA_MUTATION_ERROR_MSG` on mismatch).  The C++ line counter starts at 1
and has been incremented twice by the time the scan starts. -/
def loadPass (dataIds : List Int) (pass1 : Bool) (lines : List FileLine)
    (st0 : LoadSt) : Except SWErr (LoadSt × Nat) :=
  match lines with
  | .methodDesc s :: rest =>
    if s = methodName then
      match rest with
      | .nnField nnv :: rest2 =>
        match loadScan dataIds pass1 rest2 { st0 with lineNum := 3 } with
        | .error e => .error e
        | .ok (st, rest3) =>
          match rest3 with
          | .lineQty q :: _ =>
            if st.lineNum = q then .ok (st, nnv) else .error .dataMutation
          | _ => .error .formatError
      | _ => .error .formatError
    else .error .wrongMethod
  | _ => .error .formatError

/-- Model of `SmallWorldRand::LoadIndex` (source lines 605-680) into a fresh index:
`ptrMapper` sized to the data sequence, then two passes over the same
lines — pass 0 allocates the nodes and fills the table, pass 1 rebinds
the friend pointers.  Returns the final load state and the `NN` value
read from the file. -/
def loadIndex (dataIds : List Int) (lines : List FileLine) :
    Except SWErr (LoadSt × Nat) :=
  let st0 : LoadSt := ⟨[], List.replicate dataIds.length none, [], 1⟩
  match loadPass dataIds false lines st0 with
  | .error e => .error e
  | .ok (st1, _) => loadPass dataIds true lines { st1 with lineNum := 1 }

/-- A whole index as observable after `LoadIndex`: the loaded table plus
the `pEntryPoint_` member.  `LoadIndex` (source lines 605-680) contains no
assignment to `pEntryPoint_`, so the wrapper carries the pre-load value
through unchanged; a fresh index has `none` (null). -/
structure LoadedIndex where
  heap : List LoadCell
  elTab : List (Int × Nat)
  nn : Nat
  entry : Option Nat
deriving DecidableEq, Repr

/-- Model of `LoadIndex` as a state transformer on the whole index: the table and
`NN_` are replaced by what the file yields, and `pEntryPoint_` keeps its
previous value because the source never writes it during a load. -/
def runLoadIndex (entry0 : Option Nat) (dataIds : List Int)
    (lines : List FileLine) : Except SWErr LoadedIndex :=
  match loadIndex dataIds lines with
  | .error e => .error e
  | .ok (st, nnv) => .ok ⟨st.heap, st.elTab, nnv, entry0⟩

/-- The internal id stored at heap index `p` (dereferencing a friend
pointer and calling `getId`). -/
def cellIdAt (heap : List LoadCell) (p : Nat) : Nat :=
  match heap.get? p with
  | some c => c.nodeId
  | none => 0

/-- View a loaded cell as a node whose friends are internal ids again
(dereferencing each friend pointer through the heap). -/
def resolveCell (heap : List LoadCell) (c : LoadCell) : MSWNode :=
  ⟨c.nodeId, c.objId, c.friendRefs.map (cellIdAt heap)⟩

/-- Position of the node with internal id `f` in a node list (the heap
index `ptrMapper` assigns to it, when ids are distinct). -/
def posOfId (f : Nat) : List MSWNode → Nat
  | [] => 0
  | nd :: rest => if nd.nodeId = f then 0 else posOfId f rest + 1

/-- The heap `LoadIndex` builds from a well-formed table: one cell per
node in table order, with friend pointers replaced by heap positions. -/
def loadedCells (elL : List MSWNode) : List LoadCell :=
  elL.map fun nd => ⟨nd.nodeId, nd.objId, nd.friends.map (fun f => posOfId f elL)⟩

/-- The table `LoadIndex` builds from a well-formed save: object id of the
`i`-th node mapped to heap index `i`, in order. -/
def enumTab : Nat → List MSWNode → List (Int × Nat)
  | _, [] => []
  | i, nd :: rest => (nd.objId, i) :: enumTab (i + 1) rest

/-- The `ptrMapper` contents after `LoadIndex` pass 0 processes a node
list starting at heap index `base` (each line overwrites the slot of its
node id with its heap index). -/
def pass0Ptr (pm : List (Option Nat)) (base : Nat) : List MSWNode → List (Option Nat)
  | [] => pm
  | nd :: rest => pass0Ptr (pm.set nd.nodeId (some base)) (base + 1) rest

/-- The `ElList_` contents after `LoadIndex` pass 0 processes a node list
starting at heap index `base`. -/
def pass0Tab (tab : List (Int × Nat)) (base : Nat) : List MSWNode → List (Int × Nat)
  | [] => tab
  | nd :: rest => pass0Tab (elInsertP nd.objId base tab) (base + 1) rest

/-- The trace invariant of `SearchOld`: the offered ids are exactly the
ids whose distance was computed (in order), no id is computed twice,
computed ids are visited, and `closestDistQueue` is non-empty. -/
def soTraceInv (s : SOState α) : Prop :=
  s.offers.map Prod.snd = s.computed ∧ s.computed.Nodup ∧
    (∀ i ∈ s.computed, i ∈ s.visited) ∧ s.closest ≠ []

/-- Sortedness of the V1Merge buffer: keys in ascending order. -/
def bufSortedKeys (buf : List (BufEntry α)) : Prop :=
  (buf.map fun e => e.key).Pairwise (· ≤ ·)

/-- The state `CreateIndex` leaves behind on an empty data sequence:
no nodes, null entry point. -/
def emptyIndexState : SWState := ⟨[], none⟩

/-- Test distance matrix used by the concrete evaluations below. -/
def distC : Nat → Nat → Int := fun i j => (i + 2 * j : Int)

/-- A corrupted two-node table over a data sequence of size 2: the entry
node (internal id 0) has a friend whose internal id is 2, i.e. equal to
the dataset size and hence outside `[0, N)`. -/
def corruptState : SWState := ⟨[⟨0, 10, [2]⟩, ⟨2, 12, [0]⟩], some 0⟩

/-- The well-formed two-node table used by the concrete round-trip and
search evaluations: objects 5 and 7, nodes 0 and 1 linked to each other. -/
def twoNodeTable : List MSWNode := [⟨0, 5, [1]⟩, ⟨1, 7, [0]⟩]

/-!  Theorems.  Each claim `Cn` of the specification review gets exactly
one theorem named `Cn_...`; shared helper lemmas precede them. -/

/-- Invariant propagation along `iter`: if `step` preserves `I` and every
result emitted from an `I`-state satisfies `P`, then every result the
iteration produces from an `I`-state satisfies `P`. -/
theorem iter_inv {σ ρ : Type} (step : σ → σ ⊕ ρ) (I : σ → Prop) (P : ρ → Prop)
    (hstep : ∀ s s', I s → step s = .inl s' → I s')
    (hout : ∀ s r, I s → step s = .inr r → P r) :
    ∀ n s r, I s → iter step n s = some r → P r := by
  intro n
  induction n with
  | zero => intro s r _ h; simp [iter] at h
  | succ n ih =>
    intro s r hI h
    unfold iter at h
    split at h
    next r' hs => cases h; exact hout s _ hI hs
    next s' hs => exact ih s' r (hstep s s' hI hs) h

/-- Termination of `iter` from a measure that strictly decreases on every
continuing step: the iteration bound `n > μ s` is never exhausted. -/
theorem iter_ne_none {σ ρ : Type} (step : σ → σ ⊕ ρ) (I : σ → Prop) (μ : σ → Nat)
    (hstep : ∀ s s', I s → step s = .inl s' → I s' ∧ μ s' < μ s) :
    ∀ n s, I s → μ s < n → iter step n s ≠ none := by
  intro n
  induction n with
  | zero => intro s _ hμ; omega
  | succ n ih =>
    intro s hI hμ
    unfold iter
    split
    next r hs => simp
    next s' hs =>
      obtain ⟨hI', hd⟩ := hstep s s' hI hs
      exact ih s' hI' (by omega)

omit [LinearOrder α] in
/-- Fact: `skipUsedF` lands on an un-used entry or past the end of the buffer,
provided the structural bound covers the remaining entries. -/
theorem skipUsedF_unused (buf : List (BufEntry α)) :
    ∀ fuel i, buf.length ≤ i + fuel →
      ∀ e, buf.get? (skipUsedF buf fuel i) = some e → e.used = false := by
  intro fuel
  induction fuel with
  | zero =>
    intro i hle e he
    rw [skipUsedF] at he
    rw [List.get?_eq_none.mpr (by omega)] at he
    cases he
  | succ n ih =>
    intro i hle e he
    unfold skipUsedF at he
    split at he
    next e' hg =>
      split at he
      next => exact ih (i + 1) (by omega) e he
      next hu =>
        rw [hg] at he
        cases he
        simpa using hu
    next hg =>
      rw [hg] at he
      cases he

omit [LinearOrder α] in
/-- The cursor advance loop always lands on an un-used entry or past the
end of the buffer. -/
theorem skipUsed_unused (buf : List (BufEntry α)) (i : Nat) :
    ∀ e, buf.get? (skipUsed buf i) = some e → e.used = false :=
  skipUsedF_unused buf (buf.length - i) i (by omega)

/-- Fact: `popMinP` removes exactly one element. -/
theorem popMinP_eq_none (l : List (α × Nat)) (h : popMinP l = none) : l = [] := by
  cases l with
  | nil => rfl
  | cons a as =>
    unfold popMinP at h
    split at h
    · cases h
    · split at h <;> cases h

/-- Popping the minimum returns a list one element shorter. -/
theorem popMinP_length (l : List (α × Nat)) :
    ∀ x r, popMinP l = some (x, r) → r.length + 1 = l.length := by
  induction l with
  | nil => intro x r h; cases h
  | cons a as ih =>
    intro x r h
    unfold popMinP at h
    split at h
    next hm =>
      cases h
      have := popMinP_eq_none as hm
      simp [this]
    next m rest hm =>
      split at h
      · cases h; rfl
      · cases h
        have := ih _ _ hm
        simp
        omega

/-- A successful `sfiNeighborStep` inserts exactly the processed friend
into the visited set and grows `candidateSet` by at most one entry. -/
theorem sfiNeighborStep_ok (dq : Nat → α) (NNv efC : Nat) (f : Nat)
    (s s' : SFIState α) (h : sfiNeighborStep dq NNv efC f s = .ok s') :
    s'.visited = insert f s.visited ∧ s'.cands.length ≤ s.cands.length + 1 := by
  unfold sfiNeighborStep at h
  dsimp only at h
  split at h
  next => cases h
  next admc hadm =>
    split at h
    next => cases h
    next admr hadm2 =>
      split at h <;> cases h <;> cases admc <;> simp

/-- The only error `sfiNeighborStep` can raise is the undefined
empty-heap `top()`. -/
theorem sfiNeighborStep_error (dq : Nat → α) (NNv efC : Nat) (f : Nat)
    (s : SFIState α) (e : SWErr) (h : sfiNeighborStep dq NNv efC f s = .error e) :
    e = .emptyHeapTop := by
  unfold sfiNeighborStep at h
  dsimp only at h
  split at h
  next => cases h; rfl
  next =>
    split at h
    next => cases h; rfl
    next => split at h <;> cases h

/-- A successful `searchForIndexing` neighbor scan keeps the visited set
inside the id range and does not increase the termination measure
`|candidateSet| + (range size - |visited|)`. -/
theorem sfiProcessNeighbors_spec (dq : Nat → α) (maxId NNv efC : Nat) :
    ∀ (fs : List Nat) (s s' : SFIState α),
      sfiProcessNeighbors dq maxId NNv efC fs s = .ok s' →
      s.visited ⊆ Finset.range (maxId + 1) →
      (s'.visited ⊆ Finset.range (maxId + 1) ∧
        s'.cands.length + ((maxId + 1) - s'.visited.card) ≤
          s.cands.length + ((maxId + 1) - s.visited.card)) := by
  intro fs
  induction fs with
  | nil =>
    intro s s' h hsub
    cases h
    exact ⟨hsub, le_refl _⟩
  | cons f fs ih =>
    intro s s' h hsub
    unfold sfiProcessNeighbors at h
    split at h
    next => cases h
    next hf =>
      split at h
      next => exact ih s s' h hsub
      next hmem =>
        split at h
        next => cases h
        next s3 h3 =>
          obtain ⟨hvis, hclen⟩ := sfiNeighborStep_ok dq NNv efC f s s3 h3
          have hsub3 : s3.visited ⊆ Finset.range (maxId + 1) := by
            rw [hvis]
            intro x hx
            rcases Finset.mem_insert.mp hx with hx | hx
            · subst hx; exact Finset.mem_range.mpr (by omega)
            · exact hsub hx
          obtain ⟨h1, h2⟩ := ih s3 s' h hsub3
          refine ⟨h1, ?_⟩
          have hcard : s3.visited.card = s.visited.card + 1 := by
            rw [hvis]
            exact Finset.card_insert_of_not_mem hmem
          have hb : s3.visited.card ≤ maxId + 1 := by
            have := Finset.card_le_card hsub3
            simpa using this
          omega

/-- The errors the `searchForIndexing` neighbor scan can raise. -/
theorem sfiProcessNeighbors_error (dq : Nat → α) (maxId NNv efC : Nat) :
    ∀ (fs : List Nat) (s : SFIState α) (e : SWErr),
      sfiProcessNeighbors dq maxId NNv efC fs s = .error e →
      e = .graphCorruption ∨ e = .emptyHeapTop := by
  intro fs
  induction fs with
  | nil => intro s e h; cases h
  | cons f fs ih =>
    intro s e h
    unfold sfiProcessNeighbors at h
    split at h
    next => cases h; exact Or.inl rfl
    next =>
      split at h
      next => exact ih s e h
      next =>
        split at h
        next e' he => cases h; exact Or.inr (sfiNeighborStep_error dq NNv efC f s _ he)
        next s3 h3 => exact ih s3 e h

/-- Every continuing `sfiStep` strictly decreases the termination
measure and keeps the visited set inside the id range. -/
theorem sfiStep_measure (adj : Nat → List Nat) (dq : Nat → α)
    (maxId NNv efC : Nat) (s s' : SFIState α)
    (h : sfiStep adj dq maxId NNv efC s = .inl s')
    (hsub : s.visited ⊆ Finset.range (maxId + 1)) :
    s'.visited ⊆ Finset.range (maxId + 1) ∧
      s'.cands.length + ((maxId + 1) - s'.visited.card) <
        s.cands.length + ((maxId + 1) - s.visited.card) := by
  unfold sfiStep at h
  split at h
  next => cases h
  next curr rest hpop =>
    split at h
    next => cases h
    next lb hlb =>
      split at h
      next => cases h
      next =>
        split at h
        next => cases h
        next s3 h3 =>
          cases h
          obtain ⟨h1, h2⟩ := sfiProcessNeighbors_spec dq maxId NNv efC (adj curr.2)
            { s with cands := rest } _ h3 hsub
          have hlen := popMinP_length s.cands curr rest hpop
          refine ⟨h1, ?_⟩
          simp only at h2
          omega

/-- Fact: `sfiStep` never emits the fuel-exhaustion marker. -/
theorem sfiStep_out_ne_fuelOut (adj : Nat → List Nat) (dq : Nat → α)
    (maxId NNv efC : Nat) (s : SFIState α) (r : Except SWErr (List (α × Nat)))
    (h : sfiStep adj dq maxId NNv efC s = .inr r) : r ≠ .error .fuelOut := by
  unfold sfiStep at h
  split at h
  next => cases h; simp
  next curr rest hpop =>
    split at h
    next => cases h; simp
    next lb hlb =>
      split at h
      next => cases h; simp
      next =>
        split at h
        next e' he =>
          cases h
          rcases sfiProcessNeighbors_error dq maxId NNv efC (adj curr.2)
            { s with cands := rest } e' he with h' | h' <;> simp [h']
        next => cases h

/-- A successful `soNeighborStep` inserts exactly the processed friend
into the visited set and grows `candidateQueue` by at most one entry. -/
theorem soNeighborStep_ok (dq : Nat → α) (efS : Nat) (f : Nat)
    (s s' : SOState α) (h : soNeighborStep dq efS f s = .ok s') :
    s'.visited = insert f s.visited ∧ s'.cands.length ≤ s.cands.length + 1 := by
  unfold soNeighborStep at h
  dsimp only at h
  split at h
  next => cases h
  next admc hadm => cases h; cases admc <;> simp

/-- The only error `soNeighborStep` can raise is the undefined empty-heap
`top()`. -/
theorem soNeighborStep_error (dq : Nat → α) (efS : Nat) (f : Nat)
    (s : SOState α) (e : SWErr) (s'' : SOState α)
    (h : soNeighborStep dq efS f s = .error (e, s'')) : e = .emptyHeapTop := by
  unfold soNeighborStep at h
  dsimp only at h
  split at h
  next => cases h; rfl
  next => cases h

/-- A successful `SearchOld` neighbor scan keeps the visited set inside
the id range and does not increase the termination measure. -/
theorem soProcessNeighbors_spec (dq : Nat → α) (elN efS : Nat) :
    ∀ (fs : List Nat) (s s' : SOState α),
      soProcessNeighbors dq elN efS fs s = .ok s' →
      s.visited ⊆ Finset.range elN →
      (s'.visited ⊆ Finset.range elN ∧
        s'.cands.length + (elN - s'.visited.card) ≤
          s.cands.length + (elN - s.visited.card)) := by
  intro fs
  induction fs with
  | nil =>
    intro s s' h hsub
    cases h
    exact ⟨hsub, le_refl _⟩
  | cons f fs ih =>
    intro s s' h hsub
    unfold soProcessNeighbors at h
    split at h
    next => cases h
    next hf =>
      split at h
      next => exact ih s s' h hsub
      next hmem =>
        split at h
        next => cases h
        next s3 h3 =>
          obtain ⟨hvis, hclen⟩ := soNeighborStep_ok dq efS f s s3 h3
          have hsub3 : s3.visited ⊆ Finset.range elN := by
            rw [hvis]
            intro x hx
            rcases Finset.mem_insert.mp hx with hx | hx
            · subst hx; exact Finset.mem_range.mpr (by omega)
            · exact hsub hx
          obtain ⟨h1, h2⟩ := ih s3 s' h hsub3
          refine ⟨h1, ?_⟩
          have hcard : s3.visited.card = s.visited.card + 1 := by
            rw [hvis]
            exact Finset.card_insert_of_not_mem hmem
          have hb : s3.visited.card ≤ elN := by
            have := Finset.card_le_card hsub3
            simpa using this
          omega

/-- The errors the `SearchOld` neighbor scan can raise. -/
theorem soProcessNeighbors_error (dq : Nat → α) (elN efS : Nat) :
    ∀ (fs : List Nat) (s : SOState α) (e : SWErr) (s'' : SOState α),
      soProcessNeighbors dq elN efS fs s = .error (e, s'') →
      e = .graphCorruption ∨ e = .emptyHeapTop := by
  intro fs
  induction fs with
  | nil => intro s e s'' h; cases h
  | cons f fs ih =>
    intro s e s'' h
    unfold soProcessNeighbors at h
    split at h
    next => cases h; exact Or.inl rfl
    next =>
      split at h
      next => exact ih s e s'' h
      next =>
        split at h
        next p hp =>
          cases h
          exact Or.inr (soNeighborStep_error dq efS f s _ _ hp)
        next s3 h3 => exact ih s3 e s'' h

/-- Every continuing `soStep` strictly decreases the termination measure
and keeps the visited set inside the id range. -/
theorem soStep_measure (adj : Nat → List Nat) (dq : Nat → α) (elN efS : Nat)
    (s s' : SOState α) (h : soStep adj dq elN efS s = .inl s')
    (hsub : s.visited ⊆ Finset.range elN) :
    s'.visited ⊆ Finset.range elN ∧
      s'.cands.length + (elN - s'.visited.card) <
        s.cands.length + (elN - s.visited.card) := by
  unfold soStep at h
  split at h
  next => cases h
  next curr rest hpop =>
    split at h
    next => cases h
    next lb hlb =>
      split at h
      next => cases h
      next =>
        split at h
        next e' p hp => cases h
        next s3 h3 =>
          cases h
          obtain ⟨h1, h2⟩ := soProcessNeighbors_spec dq elN efS (adj curr.2)
            { s with cands := rest } _ h3 hsub
          have hlen := popMinP_length s.cands curr rest hpop
          refine ⟨h1, ?_⟩
          simp only at h2
          omega

/-- Fact: `soStep` never emits the fuel-exhaustion marker as the abort error. -/
theorem soStep_out_ne_fuelOut (adj : Nat → List Nat) (dq : Nat → α)
    (elN efS : Nat) (s : SOState α) (r : SearchOldRes α)
    (h : soStep adj dq elN efS s = .inr r) : r.err ≠ some .fuelOut := by
  unfold soStep at h
  split at h
  next => cases h; simp
  next curr rest hpop =>
    split at h
    next => cases h; simp
    next lb hlb =>
      split at h
      next => cases h; simp
      next =>
        split at h
        next e' p hp =>
          cases h
          rcases soProcessNeighbors_error dq elN efS (adj curr.2)
            { s with cands := rest } e' p hp with h' | h' <;> simp [h']
        next => cases h

/-- The only error the `SearchV1Merge` neighbor scan can raise is the
`CHECK(nodeId < ElList_.size())` failure. -/
theorem v1Neighbors_error (dq : Nat → α) (elN : Nat) (u : Bool) (tk : Option α) :
    ∀ fs vis e, v1Neighbors dq elN u tk fs vis = .error e →
      e = .checkNodeIdRange := by
  intro fs
  induction fs with
  | nil => intro vis e h; simp [v1Neighbors] at h
  | cons f fs ih =>
    intro vis e h
    unfold v1Neighbors at h
    split at h
    · cases h; rfl
    · split at h
      · exact ih vis e h
      · dsimp only at h
        split at h
        next e' heq => cases h; exact ih _ _ heq
        next => cases h

omit [LinearOrder α] in
/-- Counting un-used entries distributes over cons. -/
theorem unusedCount_cons (e : BufEntry α) (l : List (BufEntry α)) :
    unusedCount (e :: l) = (if e.used then 0 else 1) + unusedCount l := by
  unfold unusedCount
  cases hu : e.used
  · simp [List.filter_cons, hu]
    omega
  · simp [List.filter_cons, hu]

omit [LinearOrder α] in
/-- A sublist has no more un-used entries. -/
theorem unusedCount_sublist (l₁ l₂ : List (BufEntry α)) (h : l₁.Sublist l₂) :
    unusedCount l₁ ≤ unusedCount l₂ :=
  List.Sublist.length_le (h.filter _)

/-- Inserting a fresh (un-used) entry adds one un-used entry. -/
theorem unusedCount_bufInsert (k : α) (v : Nat) (buf : List (BufEntry α)) :
    unusedCount (bufInsert k v buf) = unusedCount buf + 1 := by
  induction buf with
  | nil => rfl
  | cons e es ih =>
    unfold bufInsert
    split
    · rw [unusedCount_cons ⟨k, v, false⟩ (e :: es)]
      simp
      omega
    · rw [unusedCount_cons e (bufInsert k v es), unusedCount_cons e es, ih]
      omega

/-- One `push_or_replace` adds at most one un-used entry. -/
theorem unusedCount_pushOrReplace (cap : Nat) (k : α) (v : Nat)
    (buf : List (BufEntry α)) :
    unusedCount (pushOrReplace cap k v buf).2 ≤ unusedCount buf + 1 := by
  unfold pushOrReplace
  split
  next t ht =>
    split
    · simp
    · simp only
      calc unusedCount ((bufInsert k v buf).take cap)
          ≤ unusedCount (bufInsert k v buf) :=
            unusedCount_sublist _ _ (List.take_sublist cap _)
        _ = unusedCount buf + 1 := unusedCount_bufInsert k v buf
  next ht =>
    simp only
    calc unusedCount ((bufInsert k v buf).take cap)
        ≤ unusedCount (bufInsert k v buf) :=
          unusedCount_sublist _ _ (List.take_sublist cap _)
      _ = unusedCount buf + 1 := unusedCount_bufInsert k v buf

/-- The per-item push loop adds at most one un-used entry per item. -/
theorem unusedCount_pushLoop (cap : Nat) :
    ∀ (its : List (α × Nat)) (cur : Nat) (buf : List (BufEntry α)),
      unusedCount (pushLoop cap its (cur, buf)).2 ≤ unusedCount buf + its.length := by
  intro its
  induction its with
  | nil => intro cur buf; simp [pushLoop]
  | cons it its ih =>
    intro cur buf
    unfold pushLoop
    dsimp only
    have h1 := unusedCount_pushOrReplace cap it.1 it.2 buf
    have h2 := ih (if (pushOrReplace cap it.1 it.2 buf).1 < cur
        then (pushOrReplace cap it.1 it.2 buf).1 else cur)
      (pushOrReplace cap it.1 it.2 buf).2
    simp only [List.length_cons]
    omega

/-- The bulk merge adds at most one un-used entry per item. -/
theorem unusedCount_merge (cap : Nat) :
    ∀ (items : List (α × Nat)) (idx : Nat) (buf : List (BufEntry α)),
      unusedCount ((items.foldl
        (fun acc it =>
          (min acc.1 (pushOrReplace cap it.1 it.2 acc.2).1,
            (pushOrReplace cap it.1 it.2 acc.2).2)) (idx, buf)).2) ≤
        unusedCount buf + items.length := by
  intro items
  induction items with
  | nil => intro idx buf; simp
  | cons it its ih =>
    intro idx buf
    rw [List.foldl_cons]
    have h1 := unusedCount_pushOrReplace cap it.1 it.2 buf
    have h2 := ih (min idx (pushOrReplace cap it.1 it.2 buf).1)
      (pushOrReplace cap it.1 it.2 buf).2
    simp only [List.length_cons]
    exact le_trans h2 (by omega)

/-- Sorted insertion grows the batch by one. -/
theorem length_insSortKey (it : α × Nat) (l : List (α × Nat)) :
    (insSortKey it l).length = l.length + 1 := by
  induction l with
  | nil => rfl
  | cons x xs ih =>
    unfold insSortKey
    split
    · rfl
    · simp [ih]

/-- Sorting preserves the batch length. -/
theorem length_sortBatch (l : List (α × Nat)) :
    (sortBatch l).length = l.length := by
  induction l with
  | nil => rfl
  | cons x xs ih =>
    unfold sortBatch
    rw [length_insSortKey, ih]
    rfl

omit [LinearOrder α] in
/-- Marking an un-used entry used removes exactly one un-used entry. -/
theorem unusedCount_markUsed (buf : List (BufEntry α)) :
    ∀ (i : Nat) (e : BufEntry α), buf.get? i = some e → e.used = false →
      unusedCount (markUsed buf i) + 1 = unusedCount buf := by
  induction buf with
  | nil => intro i e hg _; cases hg
  | cons a as ih =>
    intro i e hg hu
    cases i with
    | zero =>
      cases hg
      show unusedCount ({ a with used := true } :: as) + 1 = unusedCount (a :: as)
      rw [unusedCount_cons { a with used := true } as, unusedCount_cons a as]
      simp [hu]
      omega
    | succ n =>
      have hg' : as.get? n = some e := hg
      have hstep : markUsed (a :: as) (n + 1) = a :: markUsed as n := by
        unfold markUsed
        rw [show (a :: as).get? (n + 1) = as.get? n from rfl, hg']
        rfl
      rw [hstep, unusedCount_cons, unusedCount_cons, ← ih n e hg' hu]
      omega

omit [LinearOrder α] in
/-- A buffer holding an un-used entry has at least one un-used entry. -/
theorem unusedCount_pos (buf : List (BufEntry α)) (i : Nat) (e : BufEntry α)
    (hg : buf.get? i = some e) (hu : e.used = false) : 1 ≤ unusedCount buf := by
  have hmem : e ∈ buf := List.get?_mem hg
  have hf : e ∈ buf.filter (fun x => x.used == false) :=
    List.mem_filter.mpr ⟨hmem, by simp [hu]⟩
  exact List.length_pos_of_mem hf

/-- A successful `SearchV1Merge` neighbor scan grows the visited set by
at least one id per staged item and keeps it inside the id range. -/
theorem v1Neighbors_ok (dq : Nat → α) (elN : Nat) (u : Bool) (tk : Option α) :
    ∀ (fs : List Nat) (vis vis' : Finset Nat) (staged : List (α × Nat)),
      v1Neighbors dq elN u tk fs vis = .ok (vis', staged) →
      (vis.card + staged.length ≤ vis'.card ∧
        (vis ⊆ Finset.range elN → vis' ⊆ Finset.range elN)) := by
  intro fs
  induction fs with
  | nil =>
    intro vis vis' staged h
    cases h
    exact ⟨by simp, fun h => h⟩
  | cons f fs ih =>
    intro vis vis' staged h
    unfold v1Neighbors at h
    split at h
    next => cases h
    next hf =>
      split at h
      next hmem =>
        obtain ⟨h1, h2⟩ := ih vis vis' staged h
        exact ⟨h1, h2⟩
      next hmem =>
        dsimp only at h
        split at h
        next => cases h
        next v2 st2 h2 =>
          cases h
          obtain ⟨hcard, hrange⟩ := ih (insert f vis) _ _ h2
          have hc : (insert f vis).card = vis.card + 1 :=
            Finset.card_insert_of_not_mem hmem
          constructor
          · split
            next => simp only [List.length_cons]; omega
            next => omega
          · intro hr
            apply hrange
            intro x hx
            rcases Finset.mem_insert.mp hx with hx | hx
            · subst hx; exact Finset.mem_range.mpr (by omega)
            · exact hr hx

/-- Every continuing `v1Step` strictly decreases the termination measure
`#unused entries + (table size - #visited)` and keeps the visited set
inside the id range. -/
theorem v1Step_measure (adj : Nat → List Nat) (dq : Nat → α)
    (elN efS cap : Nat) (s s' : V1State α)
    (h : v1Step adj dq elN efS cap s = .inl s')
    (hsub : s.visited ⊆ Finset.range elN) :
    s'.visited ⊆ Finset.range elN ∧
      unusedCount s'.buf + (elN - s'.visited.card) <
        unusedCount s.buf + (elN - s.visited.card) := by
  unfold v1Step at h
  split at h
  next hc =>
    split at h
    next => cases h
    next e hg =>
      split at h
      next => cases h
      next hu =>
        dsimp only at h
        split at h
        next => cases h
        next v2 st2 h2 =>
          cases h
          obtain ⟨hcard, hrange⟩ := v1Neighbors_ok dq elN _ _ (adj e.nodeId)
            s.visited v2 st2 h2
          have hr2 := hrange hsub
          have hmark := unusedCount_markUsed s.buf s.cur e hg (by simpa using hu)
          have hb2 : v2.card ≤ elN := by
            have := Finset.card_le_card hr2
            simpa using this
          have hb : s.visited.card ≤ elN := by
            have := Finset.card_le_card hsub
            simpa using this
          refine ⟨hr2, ?_⟩
          simp only
          split
          next =>
            have hp := unusedCount_merge cap (sortBatch st2) cap (markUsed s.buf s.cur)
            rw [length_sortBatch] at hp
            simp only [mergeWithSortedItems]
            omega
          next =>
            have hp := unusedCount_pushLoop cap (sortBatch st2) (s.cur + 1)
              (markUsed s.buf s.cur)
            rw [length_sortBatch] at hp
            omega
  next => cases h

/-- Fact: `v1Step` never emits the fuel-exhaustion marker: the cursor is in
range whenever the loop condition holds, so the buffer read succeeds. -/
theorem v1Step_out_ne_fuelOut (adj : Nat → List Nat) (dq : Nat → α)
    (elN efS cap : Nat) (s : V1State α) (r : Except SWErr (List (BufEntry α)))
    (h : v1Step adj dq elN efS cap s = .inr r) : r ≠ .error .fuelOut := by
  unfold v1Step at h
  split at h
  next hc =>
    split at h
    next hg =>
      have := List.get?_eq_none.mp hg
      omega
    next e hg =>
      split at h
      next => cases h; simp
      next hu =>
        dsimp only at h
        split at h
        next err herr =>
          cases h
          have := v1Neighbors_error dq elN _ _ _ _ _ herr
          simp [this]
        next => cases h
  next => cases h; simp

/-- Every continuing `v1Step` leaves the cursor on an un-used entry or
past the end of the buffer (re-established by the final advance loop). -/
theorem v1Step_inl_cursor (adj : Nat → List Nat) (dq : Nat → α)
    (elN efS cap : Nat) (s s' : V1State α)
    (h : v1Step adj dq elN efS cap s = .inl s') :
    ∀ e, s'.buf.get? s'.cur = some e → e.used = false := by
  unfold v1Step at h
  split at h
  · split at h
    next => cases h
    next e heq =>
      split at h
      · cases h
      · dsimp only at h
        split at h
        next => cases h
        next vs hv =>
          cases h
          exact skipUsed_unused _ _
  · cases h

/-- From a state whose cursor entry is un-used, `v1Step` never emits the
`CHECK(!e.used)` failure. -/
theorem v1Step_inr_not_checkUsed (adj : Nat → List Nat) (dq : Nat → α)
    (elN efS cap : Nat) (s : V1State α) (r : Except SWErr (List (BufEntry α)))
    (hI : ∀ e, s.buf.get? s.cur = some e → e.used = false)
    (h : v1Step adj dq elN efS cap s = .inr r) :
    r ≠ .error .checkUsedFailed := by
  unfold v1Step at h
  split at h
  next hc =>
    split at h
    next hg => cases h; simp
    next e hg =>
      split at h
      next hu => exact absurd (hI e hg) (by simpa using hu)
      next hu =>
        dsimp only at h
        split at h
        next err herr =>
          cases h
          have := v1Neighbors_error dq elN _ _ _ _ _ herr
          simp [this]
        next => cases h
  next => cases h; simp

/-- Fact: `v1Run` never fails with the `CHECK(!e.used)` assertion: the initial
entry is un-used and the cursor invariant is maintained by every
iteration. -/
theorem v1Run_not_checkUsed (adj : Nat → List Nat) (dq : Nat → α)
    (elN : Nat) (entry : Option Nat) (efS k : Nat) :
    v1Run adj dq elN entry efS k ≠ .error .checkUsedFailed := by
  unfold v1Run
  split
  · simp
  · split
    · simp
    · match entry with
      | none => simp
      | some ep =>
        simp only
        split
        · simp
        · have hP := iter_inv (v1Step adj dq elN efS (max efS k))
            (fun s : V1State α => ∀ e, s.buf.get? s.cur = some e → e.used = false)
            (fun r => r ≠ .error .checkUsedFailed)
            (fun s s' _ h => v1Step_inl_cursor adj dq elN efS (max efS k) s s' h)
            (fun s r hI h => v1Step_inr_not_checkUsed adj dq elN efS (max efS k) s r hI h)
            (elN + 1)
          cases hit : iter (v1Step adj dq elN efS (max efS k)) (elN + 1)
              ⟨[⟨dq ep, ep, false⟩], {ep}, 0⟩ with
          | none => simp [hit]
          | some r =>
            have hr := hP _ r (by intro e he; cases he; rfl) hit
            cases r with
            | error e => simp [hit]; intro heq; exact hr (by rw [heq])
            | ok buf => simp [hit]

/-- Claim C4: in the `SearchV1Merge` loop the buffer entry at the cursor
position is always un-used at the start of an iteration, so the
`CHECK(!e.used)` assertion (source line 416) never fires: after
insertions possibly pull the cursor back, the final advance loop (source
lines 471-473) re-establishes that the cursor points at an un-used entry
or past the end, and the loop condition guarantees the cursor is in
range. -/
theorem C4_v1merge_cursor_check_never_fires (adj : Nat → List Nat)
    (dq : Nat → α) (elN : Nat) (entry : Option Nat) (efS k : Nat) :
    searchV1Merge adj dq elN entry efS k ≠ .error .checkUsedFailed := by
  unfold searchV1Merge
  cases hv : v1Run adj dq elN entry efS k with
  | error e =>
    have hne := v1Run_not_checkUsed adj dq elN entry efS k
    rw [hv] at hne
    simp only
    intro heq
    apply hne
    cases heq
    rfl
  | ok o => cases o <;> simp

/-- Fact: `sfiInit` never returns the fuel marker as its error. -/
theorem sfiInit_ne_fuelOut (dq : Nat → α) (entry : Option Nat)
    (maxId NNv efC : Nat) : sfiInit dq entry maxId NNv efC ≠ .error .fuelOut := by
  unfold sfiInit
  cases entry with
  | none => simp
  | some ep =>
    dsimp only
    split <;> simp

/-- Fact: `v1Run` never exhausts its iteration bound: the measure
`#unused entries + (table size - #visited)` starts at the table size and
strictly decreases on every iteration. -/
theorem v1Run_ne_fuelOut (adj : Nat → List Nat) (dq : Nat → α) (elN : Nat)
    (entry : Option Nat) (efS k : Nat) :
    v1Run adj dq elN entry efS k ≠ .error .fuelOut := by
  unfold v1Run
  split
  next h0 => simp
  next h0 =>
    split
    · simp
    · match entry with
      | none => simp
      | some ep =>
        simp only
        split
        next => simp
        next hep =>
          have hiter := iter_ne_none (v1Step adj dq elN efS (max efS k))
            (fun s : V1State α => s.visited ⊆ Finset.range elN)
            (fun s => unusedCount s.buf + (elN - s.visited.card))
            (fun s s' hI h => by
              obtain ⟨h1, h2⟩ := v1Step_measure adj dq elN efS (max efS k) s s' h hI
              exact ⟨h1, h2⟩)
            (elN + 1) (⟨[⟨dq ep, ep, false⟩], {ep}, 0⟩ : V1State α)
            (by
              intro x hx
              simp at hx
              subst hx
              exact Finset.mem_range.mpr (by omega))
            (by
              show 1 + (elN - ({ep} : Finset Nat).card) < elN + 1
              simp
              omega)
          cases hit : iter (v1Step adj dq elN efS (max efS k)) (elN + 1)
              (⟨[⟨dq ep, ep, false⟩], {ep}, 0⟩ : V1State α) with
          | none => exact absurd hit hiter
          | some r =>
            have hr := iter_inv (v1Step adj dq elN efS (max efS k))
              (fun s : V1State α => s.visited ⊆ Finset.range elN)
              (fun r => r ≠ .error .fuelOut)
              (fun s s' hI h => (v1Step_measure adj dq elN efS (max efS k) s s' h hI).1)
              (fun s r hI h => v1Step_out_ne_fuelOut adj dq elN efS (max efS k) s r h)
              (elN + 1) _ r
              (by
                intro x hx
                simp at hx
                subst hx
                exact Finset.mem_range.mpr (by omega))
              hit
            cases r with
            | error e => simpa using hr
            | ok buf => simp

/-- Fact: `topMaxD` of a non-empty heap exists. -/
theorem topMaxD_ne_none (q : List α) (hq : q ≠ []) : topMaxD q ≠ none := by
  cases q with
  | nil => exact absurd rfl hq
  | cons x xs =>
    unfold topMaxD
    split <;> simp

/-- The admission test cannot hit the undefined empty-heap `top()` when
the heap is non-empty. -/
theorem admissionD_ne_none (cap : Nat) (d : α) (q : List α) (hq : q ≠ []) :
    admissionD cap d q ≠ none := by
  unfold admissionD
  split
  · simp
  · split
    next ht => exact absurd ht (topMaxD_ne_none q hq)
    next => simp

/-- Popping a heap of at least two elements leaves it non-empty. -/
theorem popMaxD_ne_nil (x : α) (xs : List α) (hxs : xs ≠ []) :
    popMaxD (x :: xs) ≠ [] := by
  unfold popMaxD
  split
  next ht => exact absurd ht (topMaxD_ne_none xs hxs)
  next m ht =>
    split
    · exact hxs
    · simp

/-- The bounded push keeps a non-empty heap non-empty. -/
theorem trimMaxD_cons_ne_nil (cap : Nat) (d : α) (q : List α) (hq : q ≠ []) :
    trimMaxD cap (d :: q) ≠ [] := by
  unfold trimMaxD
  split
  · exact popMaxD_ne_nil d q hq
  · simp

/-- Fact: `soNeighborStep` on a fresh friend cannot fail (the heap is
non-empty) and preserves the trace invariant. -/
theorem soNeighborStep_trace (dq : Nat → α) (efS : Nat) (f : Nat)
    (s : SOState α) (hJ : soTraceInv s) (hf : f ∉ s.visited) :
    ∃ s', soNeighborStep dq efS f s = .ok s' ∧ soTraceInv s' := by
  obtain ⟨h1, h2, h3, h4⟩ := hJ
  unfold soNeighborStep
  dsimp only
  split
  next hadm => exact absurd hadm (admissionD_ne_none efS (dq f) s.closest h4)
  next admc hadm =>
    refine ⟨_, rfl, ?_, ?_, ?_, ?_⟩
    · cases admc <;> simp [h1]
    · have hfc : f ∉ s.computed := fun hc => hf (h3 f hc)
      cases admc <;> simp [List.Nodup, List.pairwise_append, h2] <;>
        simpa [List.Nodup] using ⟨h2, fun x hx hxf => hfc (hxf ▸ hx)⟩
    · intro i hi
      cases admc <;>
        · simp at hi ⊢
          rcases hi with hi | hi
          · exact Or.inr (h3 i hi)
          · exact Or.inl hi
    · cases admc
      · simpa using h4
      · simpa using trimMaxD_cons_ne_nil efS (dq f) s.closest h4

/-- The `SearchOld` neighbor scan preserves the trace invariant, both on
normal return and on the state carried by an abort. -/
theorem soProcessNeighbors_trace (dq : Nat → α) (elN efS : Nat) :
    ∀ (fs : List Nat) (s : SOState α), soTraceInv s →
      (∀ s', soProcessNeighbors dq elN efS fs s = .ok s' → soTraceInv s') ∧
      (∀ e s'', soProcessNeighbors dq elN efS fs s = .error (e, s'') →
        soTraceInv s'') := by
  intro fs
  induction fs with
  | nil =>
    intro s hJ
    constructor
    · intro s' h; cases h; exact hJ
    · intro e s'' h; cases h
  | cons f fs ih =>
    intro s hJ
    constructor
    · intro s' h
      unfold soProcessNeighbors at h
      split at h
      next => cases h
      next =>
        split at h
        next => exact (ih s hJ).1 s' h
        next hmem =>
          split at h
          next p hp =>
            obtain ⟨s3, hs3, hJ3⟩ := soNeighborStep_trace dq efS f s hJ hmem
            rw [hs3] at hp
            cases hp
          next s3 h3 =>
            obtain ⟨s3', hs3, hJ3⟩ := soNeighborStep_trace dq efS f s hJ hmem
            rw [hs3] at h3
            cases h3
            exact (ih _ hJ3).1 s' h
    · intro e s'' h
      unfold soProcessNeighbors at h
      split at h
      next => cases h; exact hJ
      next =>
        split at h
        next => exact (ih s hJ).2 e s'' h
        next hmem =>
          split at h
          next p hp =>
            obtain ⟨s3, hs3, hJ3⟩ := soNeighborStep_trace dq efS f s hJ hmem
            rw [hs3] at hp
            cases hp
          next s3 h3 =>
            obtain ⟨s3', hs3, hJ3⟩ := soNeighborStep_trace dq efS f s hJ hmem
            rw [hs3] at h3
            cases h3
            exact (ih _ hJ3).2 e s'' h

/-- Fact: `soStep` preserves the trace invariant and every result it emits
satisfies the offered-equals-computed property. -/
theorem soStep_trace (adj : Nat → List Nat) (dq : Nat → α) (elN efS : Nat)
    (s : SOState α) (hJ : soTraceInv s) :
    (∀ s', soStep adj dq elN efS s = .inl s' → soTraceInv s') ∧
    (∀ r, soStep adj dq elN efS s = .inr r →
      r.offers.map Prod.snd = r.computed ∧ r.computed.Nodup) := by
  constructor
  · intro s' h
    unfold soStep at h
    split at h
    next => cases h
    next curr rest hpop =>
      split at h
      next => cases h
      next lb hlb =>
        split at h
        next => cases h
        next =>
          split at h
          next e' p hp => cases h
          next s3 h3 =>
            cases h
            exact (soProcessNeighbors_trace dq elN efS (adj curr.2)
              { s with cands := rest } ⟨hJ.1, hJ.2.1, hJ.2.2.1, hJ.2.2.2⟩).1 _ h3
  · intro r h
    unfold soStep at h
    split at h
    next => cases h; exact ⟨hJ.1, hJ.2.1⟩
    next curr rest hpop =>
      split at h
      next => cases h; exact ⟨hJ.1, hJ.2.1⟩
      next lb hlb =>
        split at h
        next => cases h; exact ⟨hJ.1, hJ.2.1⟩
        next =>
          split at h
          next e' p hp =>
            cases h
            have hJ' := (soProcessNeighbors_trace dq elN efS (adj curr.2)
              { s with cands := rest } ⟨hJ.1, hJ.2.1, hJ.2.2.1, hJ.2.2.2⟩).2 e' p hp
            exact ⟨hJ'.1, hJ'.2.1⟩
          next s3 h3 => cases h

/-- Claim C5: in `SearchOld` every node whose distance to the query is
computed — the entry point (source lines 505-506) and every neighbor
visited for the first time (lines 552-566) — is offered to the result
sink via `CheckAndAddToResult`, regardless of whether it is admitted into
the `closestDistQueue` beam, and no node is offered twice by the search
itself: the offered ids coincide with the computed ids, which are
pairwise distinct thanks to the visited bitset. -/
theorem C5_searchold_offers_every_computed_node_once (adj : Nat → List Nat)
    (dq : Nat → α) (elN : Nat) (entry : Option Nat) (efS : Nat) :
    (searchOld adj dq elN entry efS).offers.map Prod.snd =
      (searchOld adj dq elN entry efS).computed ∧
    (searchOld adj dq elN entry efS).computed.Nodup := by
  unfold searchOld
  split
  next => simp
  next h0 =>
    split
    next => simp
    next hefS =>
      cases entry with
      | none => simp
      | some ep =>
        dsimp only
        split
        next => simp
        next hep =>
          cases hit : iter (soStep adj dq elN efS) (elN + 1)
              (⟨[(dq ep, ep)], [dq ep], {ep}, [(dq ep, ep)], [ep]⟩ : SOState α) with
          | none => simp
          | some r =>
            have hr := iter_inv (soStep adj dq elN efS) soTraceInv
              (fun r : SearchOldRes α =>
                r.offers.map Prod.snd = r.computed ∧ r.computed.Nodup)
              (fun s s' hI h => (soStep_trace adj dq elN efS s hI).1 s' h)
              (fun s r hI h => (soStep_trace adj dq elN efS s hI).2 r h)
              (elN + 1) _ r
              (by
                refine ⟨by simp, by simp, ?_, by simp⟩
                intro i hi
                simp at hi
                simp [hi])
              hit
            exact hr

omit [LinearOrder α] in
/-- Marking an entry used does not change the key sequence. -/
theorem keys_markUsed (l : List (BufEntry α)) :
    ∀ i, (markUsed l i).map (fun e => e.key) = l.map (fun e => e.key) := by
  induction l with
  | nil => intro i; rfl
  | cons a as ih =>
    intro i
    cases i with
    | zero =>
      unfold markUsed
      rfl
    | succ n =>
      have hstep : markUsed (a :: as) (n + 1) = a :: markUsed as n := by
        unfold markUsed
        rw [List.get?_cons_succ]
        cases hg : as.get? n with
        | none => rfl
        | some e => rfl
      rw [hstep]
      simp only [List.map_cons, ih n]

/-- Keys appearing after a sorted insertion. -/
theorem mem_keys_bufInsert (k : α) (v : Nat) (l : List (BufEntry α)) (x : α) :
    x ∈ (bufInsert k v l).map (fun e => e.key) →
      x = k ∨ x ∈ l.map (fun e => e.key) := by
  induction l with
  | nil =>
    intro hx
    simp only [bufInsert, List.map_cons, List.map_nil, List.mem_cons,
      List.not_mem_nil, or_false] at hx
    exact Or.inl hx
  | cons e es ih =>
    intro hx
    unfold bufInsert at hx
    split at hx
    · simp only [List.map_cons, List.mem_cons] at hx
      rcases hx with hx | hx | hx
      · exact Or.inl hx
      · exact Or.inr (by simp only [List.map_cons, List.mem_cons]; exact Or.inl hx)
      · exact Or.inr (by simp only [List.map_cons, List.mem_cons]; exact Or.inr hx)
    · simp only [List.map_cons, List.mem_cons] at hx
      rcases hx with hx | hx
      · exact Or.inr (by simp only [List.map_cons, List.mem_cons]; exact Or.inl hx)
      · rcases ih hx with hx | hx
        · exact Or.inl hx
        · exact Or.inr (by simp only [List.map_cons, List.mem_cons]; exact Or.inr hx)

/-- Sorted insertion keeps the buffer sorted. -/
theorem sortedKeys_bufInsert (k : α) (v : Nat) (l : List (BufEntry α))
    (h : bufSortedKeys l) : bufSortedKeys (bufInsert k v l) := by
  induction l with
  | nil => simp [bufSortedKeys, bufInsert]
  | cons e es ih =>
    unfold bufSortedKeys at h ⊢
    unfold bufInsert
    split
    next hk =>
      simp only [List.map_cons]
      refine List.Pairwise.cons ?_ h
      intro y hy
      simp only [List.map_cons] at hy
      rcases List.mem_cons.mp hy with hy | hy
      · exact le_of_lt (hy ▸ hk)
      · have h' := List.pairwise_cons.mp h
        exact le_trans (le_of_lt hk) (h'.1 y hy)
    next hk =>
      simp only [List.map_cons] at h ⊢
      have h' := List.pairwise_cons.mp h
      refine List.Pairwise.cons ?_ (ih h'.2)
      intro y hy
      rcases mem_keys_bufInsert k v es y hy with rfl | hy
      · exact le_of_not_lt hk
      · exact h'.1 y hy

/-- A prefix of a sorted buffer is sorted. -/
theorem sortedKeys_take (n : Nat) (l : List (BufEntry α)) (h : bufSortedKeys l) :
    bufSortedKeys (l.take n) := by
  unfold bufSortedKeys at h ⊢
  rw [List.map_take]
  exact List.Pairwise.sublist (List.take_sublist n _) h

/-- Fact: `push_or_replace` keeps the buffer sorted. -/
theorem sortedKeys_pushOrReplace (cap : Nat) (k : α) (v : Nat)
    (l : List (BufEntry α)) (h : bufSortedKeys l) :
    bufSortedKeys (pushOrReplace cap k v l).2 := by
  unfold pushOrReplace
  split
  next t ht =>
    split
    · exact h
    · exact sortedKeys_take cap _ (sortedKeys_bufInsert k v l h)
  next ht => exact sortedKeys_take cap _ (sortedKeys_bufInsert k v l h)

/-- The per-item push loop keeps the buffer sorted. -/
theorem sortedKeys_pushLoop (cap : Nat) :
    ∀ (its : List (α × Nat)) (cur : Nat) (l : List (BufEntry α)),
      bufSortedKeys l → bufSortedKeys (pushLoop cap its (cur, l)).2 := by
  intro its
  induction its with
  | nil => intro cur l h; exact h
  | cons it its ih =>
    intro cur l h
    unfold pushLoop
    dsimp only
    exact ih _ _ (sortedKeys_pushOrReplace cap it.1 it.2 l h)

/-- The bulk merge keeps the buffer sorted. -/
theorem sortedKeys_merge (cap : Nat) :
    ∀ (items : List (α × Nat)) (idx : Nat) (l : List (BufEntry α)),
      bufSortedKeys l →
      bufSortedKeys ((items.foldl
        (fun acc it =>
          (min acc.1 (pushOrReplace cap it.1 it.2 acc.2).1,
            (pushOrReplace cap it.1 it.2 acc.2).2)) (idx, l)).2) := by
  intro items
  induction items with
  | nil => intro idx l h; exact h
  | cons it its ih =>
    intro idx l h
    rw [List.foldl_cons]
    exact ih _ _ (sortedKeys_pushOrReplace cap it.1 it.2 l h)

/-- Every continuing `v1Step` keeps the buffer sorted. -/
theorem v1Step_sorted (adj : Nat → List Nat) (dq : Nat → α)
    (elN efS cap : Nat) (s s' : V1State α)
    (h : v1Step adj dq elN efS cap s = .inl s')
    (hs : bufSortedKeys s.buf) : bufSortedKeys s'.buf := by
  have hmark : bufSortedKeys (markUsed s.buf s.cur) := by
    unfold bufSortedKeys
    rw [keys_markUsed]
    exact hs
  unfold v1Step at h
  split at h
  next hc =>
    split at h
    next => cases h
    next e hg =>
      split at h
      next => cases h
      next hu =>
        dsimp only at h
        split at h
        next => cases h
        next v2 st2 h2 =>
          cases h
          simp only
          split
          next =>
            simp only [mergeWithSortedItems]
            exact sortedKeys_merge cap (sortBatch st2) cap _ hmark
          next => exact sortedKeys_pushLoop cap (sortBatch st2) _ _ hmark
  next => cases h

/-- Every buffer `v1Step` returns is sorted (it is the loop-exit state's
buffer). -/
theorem v1Step_out_sorted (adj : Nat → List Nat) (dq : Nat → α)
    (elN efS cap : Nat) (s : V1State α) (r : Except SWErr (List (BufEntry α)))
    (h : v1Step adj dq elN efS cap s = .inr r) (hs : bufSortedKeys s.buf) :
    ∀ b, r = .ok b → bufSortedKeys b := by
  unfold v1Step at h
  split at h
  next hc =>
    split at h
    next => cases h; intro b hb; cases hb
    next e hg =>
      split at h
      next => cases h; intro b hb; cases hb
      next hu =>
        dsimp only at h
        split at h
        next => cases h; intro b hb; cases hb
        next => cases h
  next =>
    cases h
    intro b hb
    cases hb
    exact hs

/-- Claim C6: when a `SearchV1Merge` traversal completes with final
buffer `buf` on a non-empty index, the emission loop (source lines
476-478) offers exactly the first `min(k, buf.size)` entries of the
buffer to the result sink, and — because every insertion keeps the
buffer sorted — in ascending distance order. -/
theorem C6_v1merge_emits_first_min_k_in_order (adj : Nat → List Nat)
    (dq : Nat → α) (elN : Nat) (entry : Option Nat) (efS k : Nat)
    (buf : List (BufEntry α)) (helN : elN ≠ 0)
    (hrun : v1Run adj dq elN entry efS k = .ok (some buf)) :
    searchV1Merge adj dq elN entry efS k = .ok (emit k buf) ∧
    (emit k buf).length = min k buf.length ∧
    List.Pairwise (fun a b : α × Nat => a.1 ≤ b.1) (emit k buf) := by
  have hsorted : bufSortedKeys buf := by
    unfold v1Run at hrun
    split at hrun
    next => simp at hrun
    next =>
      split at hrun
      next => cases hrun
      next hefS =>
        split at hrun
        next => cases hrun
        next ep =>
          dsimp only at hrun
          split at hrun
          next => cases hrun
          next hep =>
            split at hrun
            next => cases hrun
            next r hit => cases hrun
            next b hb =>
              cases hrun
              exact iter_inv (v1Step adj dq elN efS (max efS k))
                (fun s : V1State α => bufSortedKeys s.buf)
                (fun r => ∀ b, r = .ok b → bufSortedKeys b)
                (fun s s' hI h => v1Step_sorted adj dq elN efS (max efS k) s s' h hI)
                (fun s r hI h => v1Step_out_sorted adj dq elN efS (max efS k) s r h hI)
                (elN + 1) _ _ (by simp [bufSortedKeys]) hb _ rfl
  refine ⟨?_, ?_, ?_⟩
  · unfold searchV1Merge
    rw [hrun]
  · unfold emit
    rw [List.length_map, List.length_take]
    omega
  · unfold emit
    rw [List.pairwise_map]
    exact List.Pairwise.sublist (List.take_sublist _ _)
      (List.pairwise_map.mp hsorted)

/-- Witness for C6 on the concrete two-node index. -/
theorem C6_v1merge_emits_first_min_k_in_order_witness :
    ((2 : Nat) ≠ 0 ∧
      v1Run (adjOf twoNodeTable) (fun i => (i : Int) + 1) 2 (some 0) 2 3 =
        .ok (some [⟨1, 0, true⟩, ⟨2, 1, true⟩])) ∧
    (searchV1Merge (adjOf twoNodeTable) (fun i => (i : Int) + 1) 2 (some 0) 2 3 =
        .ok (emit 3 [⟨1, 0, true⟩, ⟨2, 1, true⟩]) ∧
      (emit 3 [(⟨1, 0, true⟩ : BufEntry Int), ⟨2, 1, true⟩]).length =
        min 3 ([(⟨1, 0, true⟩ : BufEntry Int), ⟨2, 1, true⟩]).length ∧
      List.Pairwise (fun a b : Int × Nat => a.1 ≤ b.1)
        (emit 3 [(⟨1, 0, true⟩ : BufEntry Int), ⟨2, 1, true⟩])) :=
  ⟨⟨by decide, by rfl⟩,
    C6_v1merge_emits_first_min_k_in_order (adjOf twoNodeTable)
      (fun i => (i : Int) + 1) 2 (some 0) 2 3 [⟨1, 0, true⟩, ⟨2, 1, true⟩]
      (by decide) (by rfl)⟩

/-- Claim C9: all three graph traversals terminate on every finite input:
the visited bitset lets each node enter the frontier at most once, so the
candidate heaps drain (measure `|candidates| + #unvisited`) and the
V1Merge cursor, despite moving backwards, runs out of un-used entries
(measure `#unused + #unvisited`).  In the model each loop runs with the
iteration bound fixed by its wrapper, and no run ever exhausts it. -/
theorem C9_search_loops_terminate (adj : Nat → List Nat) (dq : Nat → α)
    (entry : Option Nat) (maxId NNv efC elN efS k : Nat) :
    searchForIndexing adj dq entry maxId NNv efC ≠ .error .fuelOut ∧
    (searchOld adj dq elN entry efS).err ≠ some .fuelOut ∧
    searchV1Merge adj dq elN entry efS k ≠ .error .fuelOut := by
  refine ⟨?_, ?_, ?_⟩
  · unfold searchForIndexing
    cases hinit : sfiInit dq entry maxId NNv efC with
    | error e =>
      dsimp only
      have hne := sfiInit_ne_fuelOut dq entry maxId NNv efC
      rw [hinit] at hne
      intro heq
      apply hne
      cases heq
      rfl
    | ok s0 =>
      dsimp only
      unfold sfiInit at hinit
      cases entry with
      | none => cases hinit
      | some ep =>
        dsimp only at hinit
        split at hinit
        next => cases hinit
        next hep =>
          cases hinit
          have hiter := iter_ne_none (sfiStep adj dq maxId NNv efC)
            (fun s : SFIState α => s.visited ⊆ Finset.range (maxId + 1))
            (fun s => s.cands.length + ((maxId + 1) - s.visited.card))
            (fun s s' hI h => by
              obtain ⟨h1, h2⟩ := sfiStep_measure adj dq maxId NNv efC s s' h hI
              exact ⟨h1, h2⟩)
            (maxId + 2)
            (⟨[(dq ep, ep)], trimMaxD efC [dq ep], {ep},
              trimMaxP NNv [(dq ep, ep)]⟩ : SFIState α)
            (by
              intro x hx
              simp at hx
              subst hx
              exact Finset.mem_range.mpr (by omega))
            (by simp; omega)
          cases hit : iter (sfiStep adj dq maxId NNv efC) (maxId + 2)
              (⟨[(dq ep, ep)], trimMaxD efC [dq ep], {ep},
                trimMaxP NNv [(dq ep, ep)]⟩ : SFIState α) with
          | none => exact absurd hit hiter
          | some r =>
            have hr := iter_inv (sfiStep adj dq maxId NNv efC)
              (fun s : SFIState α => s.visited ⊆ Finset.range (maxId + 1))
              (fun r => r ≠ .error .fuelOut)
              (fun s s' hI h => (sfiStep_measure adj dq maxId NNv efC s s' h hI).1)
              (fun s r hI h => sfiStep_out_ne_fuelOut adj dq maxId NNv efC s r h)
              (maxId + 2) _ r
              (by
                intro x hx
                simp at hx
                subst hx
                exact Finset.mem_range.mpr (by omega))
              hit
            exact hr
  · unfold searchOld
    split
    next => simp
    next h0 =>
      split
      next => simp
      next =>
        cases entry with
        | none => simp
        | some ep =>
          dsimp only
          split
          next => simp
          next hep =>
            have hiter := iter_ne_none (soStep adj dq elN efS)
              (fun s : SOState α => s.visited ⊆ Finset.range elN)
              (fun s => s.cands.length + (elN - s.visited.card))
              (fun s s' hI h => by
                obtain ⟨h1, h2⟩ := soStep_measure adj dq elN efS s s' h hI
                exact ⟨h1, h2⟩)
              (elN + 1)
              (⟨[(dq ep, ep)], [dq ep], {ep}, [(dq ep, ep)], [ep]⟩ : SOState α)
              (by
                intro x hx
                simp at hx
                subst hx
                exact Finset.mem_range.mpr (by omega))
              (by simp; omega)
            cases hit : iter (soStep adj dq elN efS) (elN + 1)
                (⟨[(dq ep, ep)], [dq ep], {ep}, [(dq ep, ep)], [ep]⟩ : SOState α) with
            | none => exact absurd hit hiter
            | some r =>
              have hr := iter_inv (soStep adj dq elN efS)
                (fun s : SOState α => s.visited ⊆ Finset.range elN)
                (fun r : SearchOldRes α => r.err ≠ some .fuelOut)
                (fun s s' hI h => (soStep_measure adj dq elN efS s s' h hI).1)
                (fun s r hI h => soStep_out_ne_fuelOut adj dq elN efS s r h)
                (elN + 1) _ r
                (by
                  intro x hx
                  simp at hx
                  subst hx
                  exact Finset.mem_range.mpr (by omega))
                hit
              exact hr
  · unfold searchV1Merge
    cases hv : v1Run adj dq elN entry efS k with
    | error e =>
      have hne := v1Run_ne_fuelOut adj dq elN entry efS k
      rw [hv] at hne
      simp only
      intro heq
      apply hne
      cases heq
      rfl
    | ok o => cases o <;> simp

/-- Claim C2 (evidence of the code bug): saving a valid one-node index
and loading the file into a fresh index (`pEntryPoint_ = null`) leaves
the node table non-empty but the entry point still null, because
`LoadIndex` (source lines 605-680) contains no assignment to
`pEntryPoint_`; the next `Search` call would then throw the source's own
"Bug: there is not entry point set!" check.  The claim demands a non-null
entry point after every table-filling operation, including `LoadIndex`. -/
theorem C2_loadindex_leaves_entry_point_null :
    saveIndex 1 10 [⟨0, 7, []⟩] =
      .ok [.methodDesc methodName, .nnField 10, .nodeLine 0 7 [], .blank, .lineQty 5] ∧
    runLoadIndex none [7]
        [.methodDesc methodName, .nnField 10, .nodeLine 0 7 [], .blank, .lineQty 5] =
      .ok ⟨[⟨0, 7, []⟩], [(7, 0)], 10, none⟩ :=
  ⟨rfl, rfl⟩

/-- Claim C3 (evidence of the code bug): `add` is invoked with
`maxInternalId = data_.size()` (source lines 144, 87: `add(node,
data_.size())`), not `data_.size() - 1`.  On a dataset of size 2 whose
graph contains a reachable node with internal id 2 — outside `[0, 2)` —
the indexing beam search therefore completes successfully instead of
failing with GraphCorruption; had the call passed `data_.size() - 1 = 1`
as the claim states, the same insertion would fail. -/
theorem C3_add_uses_dataset_size_not_minus_one :
    addOp distC corruptState 1 11 2 1 1 =
      .ok ⟨[⟨0, 10, [2, 1]⟩, ⟨1, 11, [0]⟩, ⟨2, 12, [0]⟩], some 0⟩ ∧
    addOp distC corruptState 1 11 1 1 1 = .error .graphCorruption :=
  ⟨rfl, rfl⟩

/-- Claim C7: with a single indexing thread the graph produced by
`CreateIndex` is a deterministic function of the data sequence (its
object ids and the distances the space supplies), `NN`, `efConstruction`
and `useProxyDist`.  The single-thread build path is modelled as the pure
function `createIndexFull` of exactly these inputs — the source path
contains no randomness and no other input — so two builds with identical
inputs yield identical graphs. -/
theorem C7_single_thread_build_deterministic
    (Df₁ Dp₁ Df₂ Dp₂ : Nat → Nat → α) (u₁ u₂ : Bool) (ids₁ ids₂ : List Int)
    (NN₁ NN₂ efC₁ efC₂ : Nat)
    (hf : Df₁ = Df₂) (hp : Dp₁ = Dp₂) (hu : u₁ = u₂) (hids : ids₁ = ids₂)
    (hNN : NN₁ = NN₂) (hef : efC₁ = efC₂) :
    createIndexFull u₁ Df₁ Dp₁ ids₁ NN₁ efC₁ =
      createIndexFull u₂ Df₂ Dp₂ ids₂ NN₂ efC₂ := by
  subst hf; subst hp; subst hu; subst hids; subst hNN; subst hef; rfl

/-- Witness for C7 at a concrete input. -/
theorem C7_single_thread_build_deterministic_witness :
    createIndexFull false distC distC [5, 7, 9] 2 2 =
      createIndexFull false distC distC [5, 7, 9] 2 2 :=
  C7_single_thread_build_deterministic distC distC distC distC false false
    [5, 7, 9] [5, 7, 9] 2 2 2 2 rfl rfl rfl rfl rfl rfl

/-- Claim C8: building over an empty data sequence returns normally with
no nodes created (`CreateIndex` line 129), and a kNN query against the
resulting index — any `k`, either algorithm — returns empty with no
error (the `ElList_.empty()` early returns at lines 375 and 485, reached
before every other check). -/
theorem C8_empty_build_then_query_empty (useProxy : Bool)
    (Df Dp : Nat → Nat → α) (NNv efC : Nat) (adj : Nat → List Nat)
    (dq : Nat → α) (efS k : Nat) :
    createIndexFull useProxy Df Dp [] NNv efC = .ok emptyIndexState ∧
    searchV1Merge adj dq emptyIndexState.elList.length emptyIndexState.entry efS k =
      .ok [] ∧
    searchOld adj dq emptyIndexState.elList.length emptyIndexState.entry efS =
      ⟨[], [], none⟩ :=
  ⟨rfl, rfl, rfl⟩

/-- Claim C10: with `efSearch = 0` both query algorithms fail with the
"efSearch should be > 0" check (source lines 376 and 486) on a non-empty
index instead of returning any result, while on an empty index the same
query returns empty without error because the emptiness early-return
precedes the check. -/
theorem C10_efsearch_zero_fails_on_nonempty (adj : Nat → List Nat)
    (dq : Nat → α) (elN : Nat) (entry : Option Nat) (k : Nat) :
    (elN ≠ 0 →
      searchV1Merge adj dq elN entry 0 k = .error .efSearchZero ∧
      searchOld adj dq elN entry 0 = ⟨[], [], some .efSearchZero⟩) ∧
    (elN = 0 →
      searchV1Merge adj dq elN entry 0 k = .ok [] ∧
      searchOld adj dq elN entry 0 = ⟨[], [], none⟩) := by
  constructor
  · intro h
    constructor
    · unfold searchV1Merge v1Run
      rw [if_neg h]
      rfl
    · unfold searchOld
      rw [if_neg h]
      rfl
  · intro h
    subst h
    exact ⟨rfl, rfl⟩

/-- Witness for C10 at concrete inputs: a one-element table for the first
branch, the empty table for the second. -/
theorem C10_efsearch_zero_fails_on_nonempty_witness :
    (searchV1Merge (fun _ => []) (fun _ => (0 : Int)) 1 (some 0) 0 5 =
        .error .efSearchZero ∧
      searchOld (fun _ => []) (fun _ => (0 : Int)) 1 (some 0) 0 =
        ⟨[], [], some .efSearchZero⟩) ∧
    (searchV1Merge (fun _ => []) (fun _ => (0 : Int)) 0 none 0 5 = .ok [] ∧
      searchOld (fun _ => []) (fun _ => (0 : Int)) 0 none 0 = ⟨[], [], none⟩) :=
  ⟨(C10_efsearch_zero_fails_on_nonempty (fun _ => []) (fun _ => (0 : Int)) 1
      (some 0) 5).1 (by decide),
    (C10_efsearch_zero_fails_on_nonempty (fun _ => []) (fun _ => (0 : Int)) 0
      none 5).2 rfl⟩

/-- Fact: `getD` after updating a different index. -/
theorem getD_set_ne {β : Type} (l : List β) :
    ∀ (i j : Nat) (x d : β), i ≠ j → (l.set i x).getD j d = l.getD j d := by
  intro i j x d hij
  rw [List.getD_eq_get?, List.getD_eq_get?, List.get?_set_ne x l hij]

/-- Fact: `getD` after updating the same (in-range) index. -/
theorem getD_set_self {β : Type} (l : List β) :
    ∀ (i : Nat) (x d : β), i < l.length → (l.set i x).getD i d = x := by
  intro i x d hi
  rw [List.getD_eq_get?, List.get?_set_eq_of_lt x hi]
  rfl

/-- Fact: `posOfId` finds a position inside the list for a present id. -/
theorem posOfId_lt (f : Nat) :
    ∀ (l : List MSWNode), f ∈ l.map (·.nodeId) → posOfId f l < l.length := by
  intro l
  induction l with
  | nil => intro h; simp at h
  | cons nd rest ih =>
    intro h
    unfold posOfId
    split
    · simp
    next hne =>
      simp only [List.map_cons, List.mem_cons] at h
      rcases h with h | h
      · exact absurd h.symm hne
      · have := ih h
        simp
        omega

/-- Fact: `posOfId` returns a position holding the requested id. -/
theorem get?_posOfId (f : Nat) :
    ∀ (l : List MSWNode), f ∈ l.map (·.nodeId) →
      ∃ nd, l.get? (posOfId f l) = some nd ∧ nd.nodeId = f := by
  intro l
  induction l with
  | nil => intro h; simp at h
  | cons nd rest ih =>
    intro h
    unfold posOfId
    split
    next heq => exact ⟨nd, rfl, heq⟩
    next hne =>
      simp only [List.map_cons, List.mem_cons] at h
      rcases h with h | h
      · exact absurd h.symm hne
      · obtain ⟨nd', h1, h2⟩ := ih h
        exact ⟨nd', by rw [List.get?_cons_succ]; exact h1, h2⟩

/-- With distinct ids, `posOfId` inverts indexing. -/
theorem posOfId_get? (l : List MSWNode) :
    ∀ (j : Nat) (nd : MSWNode), l.get? j = some nd →
      (l.map (·.nodeId)).Nodup → posOfId nd.nodeId l = j := by
  induction l with
  | nil => intro j nd h _; cases h
  | cons a rest ih =>
    intro j nd h hnodup
    simp only [List.map_cons, List.nodup_cons] at hnodup
    cases j with
    | zero =>
      cases h
      unfold posOfId
      rw [if_pos rfl]
    | succ n =>
      rw [List.get?_cons_succ] at h
      unfold posOfId
      split
      next heq =>
        exfalso
        apply hnodup.1
        rw [heq]
        exact List.mem_map.mpr ⟨nd, List.get?_mem h, rfl⟩
      next hne => rw [ih n nd h hnodup.2]

/-- Fact: `SaveIndex`'s node-line loop succeeds on a table whose ids are all in
range and emits one structured line per node. -/
theorem saveNodeLines_ok (N : Nat) :
    ∀ (elL : List MSWNode),
      (∀ nd ∈ elL, nd.nodeId < N ∧ ∀ f ∈ nd.friends, f < N) →
      saveNodeLines N elL =
        .ok (elL.map fun nd => FileLine.nodeLine nd.nodeId nd.objId nd.friends) := by
  intro elL
  induction elL with
  | nil => intro h; rfl
  | cons nd rest ih =>
    intro h
    obtain ⟨h1, h2⟩ := h nd (by simp)
    unfold saveNodeLines
    rw [if_pos h1, if_pos (by simpa using h2), ih (fun x hx => h x (by simp [hx]))]
    rfl

/-- Fact: `std::map::insert` appends when the key is larger than every present
key. -/
theorem elInsertP_append (key : Int) (v : Nat) :
    ∀ (tab : List (Int × Nat)), (∀ p ∈ tab, p.1 < key) →
      elInsertP key v tab = tab ++ [(key, v)] := by
  intro tab
  induction tab with
  | nil => intro _; rfl
  | cons p rest ih =>
    intro h
    have hp := h p (by simp)
    unfold elInsertP
    rw [if_neg (by omega), if_neg (by omega), ih (fun q hq => h q (by simp [hq]))]
    rfl

/-- Fact: `pass0Ptr` leaves slots of absent ids unchanged. -/
theorem pass0Ptr_getD_of_not_mem :
    ∀ (l : List MSWNode) (pm : List (Option Nat)) (base f : Nat),
      f ∉ l.map (·.nodeId) →
      (pass0Ptr pm base l).getD f none = pm.getD f none := by
  intro l
  induction l with
  | nil => intro pm base f _; rfl
  | cons nd rest ih =>
    intro pm base f hf
    simp only [List.map_cons, List.mem_cons] at hf
    unfold pass0Ptr
    rw [ih _ _ _ (fun h => hf (Or.inr h)),
      getD_set_ne pm nd.nodeId f _ none (fun h => hf (Or.inl (h ▸ rfl)))]

/-- Fact: `pass0Ptr` preserves the `ptrMapper` length. -/
theorem pass0Ptr_length :
    ∀ (l : List MSWNode) (pm : List (Option Nat)) (base : Nat),
      (pass0Ptr pm base l).length = pm.length := by
  intro l
  induction l with
  | nil => intro pm base; rfl
  | cons nd rest ih =>
    intro pm base
    unfold pass0Ptr
    rw [ih, List.length_set]

/-- After pass 0, `ptrMapper` maps each present id to the heap index of
its (unique) node. -/
theorem pass0Ptr_getD_mem :
    ∀ (l : List MSWNode) (pm : List (Option Nat)) (base f : Nat),
      f ∈ l.map (·.nodeId) → (l.map (·.nodeId)).Nodup →
      (∀ nd ∈ l, nd.nodeId < pm.length) →
      (pass0Ptr pm base l).getD f none = some (base + posOfId f l) := by
  intro l
  induction l with
  | nil => intro pm base f hf _ _; simp at hf
  | cons nd rest ih =>
    intro pm base f hf hnodup hlen
    simp only [List.map_cons, List.nodup_cons] at hnodup
    unfold pass0Ptr posOfId
    by_cases heq : nd.nodeId = f
    · subst heq
      rw [if_pos rfl, pass0Ptr_getD_of_not_mem rest _ _ _ hnodup.1,
        getD_set_self pm nd.nodeId (some base) none (hlen nd (by simp))]
      simp
    · rw [if_neg heq]
      simp only [List.map_cons, List.mem_cons] at hf
      rcases hf with hf | hf
      · exact absurd hf.symm heq
      · rw [ih _ (base + 1) f hf hnodup.2
          (fun x hx => by rw [List.length_set]; exact hlen x (by simp [hx]))]
        congr 1
        omega

/-- After pass 0, `ElList_` holds the nodes' object ids mapped to their
heap indexes, in table order. -/
theorem pass0Tab_spec :
    ∀ (l : List MSWNode) (tab : List (Int × Nat)) (base : Nat),
      List.Pairwise (fun a b : MSWNode => a.objId < b.objId) l →
      (∀ p ∈ tab, ∀ nd ∈ l, p.1 < nd.objId) →
      pass0Tab tab base l = tab ++ enumTab base l := by
  intro l
  induction l with
  | nil => intro tab base _ _; simp [pass0Tab, enumTab]
  | cons nd rest ih =>
    intro tab base hpair htab
    unfold pass0Tab enumTab
    rw [elInsertP_append nd.objId base tab (fun p hp => htab p hp nd (by simp)),
      ih _ (base + 1) (List.pairwise_cons.mp hpair).2 ?_]
    · simp
    · intro p hp nd' hnd'
      simp only [List.mem_append, List.mem_cons] at hp
      rcases hp with hp | hp
      · exact htab p hp nd' (by simp [hnd'])
      · simp at hp
        subst hp
        exact (List.pairwise_cons.mp hpair).1 nd' hnd'

/-- Fact: `LoadIndex` pass 0 over the node lines written by `SaveIndex`:
allocates the cells in file order, records them in `ptrMapper` and the
table, and counts the lines. -/
theorem loadScan_pass0 (dataIds : List Int) :
    ∀ (l : List MSWNode) (tail : List FileLine) (heap : List LoadCell)
      (pm : List (Option Nat)) (tab : List (Int × Nat)) (ln : Nat),
      (∀ nd ∈ l, nd.nodeId < dataIds.length ∧ dataIds.getD nd.nodeId 0 = nd.objId) →
      loadScan dataIds false
        (l.map (fun nd => FileLine.nodeLine nd.nodeId nd.objId nd.friends) ++
          FileLine.blank :: tail) ⟨heap, pm, tab, ln⟩ =
      .ok (⟨heap ++ l.map (fun nd => ⟨nd.nodeId, nd.objId, []⟩),
            pass0Ptr pm heap.length l, pass0Tab tab heap.length l,
            ln + l.length + 1⟩, tail) := by
  intro l
  induction l with
  | nil =>
    intro tail heap pm tab ln _
    simp only [List.map_nil, List.nil_append]
    unfold loadScan
    simp [pass0Ptr, pass0Tab]
  | cons nd rest ih =>
    intro tail heap pm tab ln h
    obtain ⟨h1, h2⟩ := h nd (by simp)
    simp only [List.map_cons, List.cons_append]
    unfold loadScan
    rw [if_pos h1, if_pos h2, if_neg Bool.false_ne_true]
    dsimp only
    have hrec := ih tail (heap ++ [⟨nd.nodeId, nd.objId, []⟩])
      (pm.set nd.nodeId (some heap.length)) (elInsertP nd.objId heap.length tab)
      (ln + 1) (fun x hx => h x (by simp [hx]))
    rw [hrec]
    have e1 : heap ++ [(⟨nd.nodeId, nd.objId, []⟩ : LoadCell)] ++
        rest.map (fun nd => (⟨nd.nodeId, nd.objId, []⟩ : LoadCell)) =
        heap ++ (⟨nd.nodeId, nd.objId, []⟩ : LoadCell) ::
          rest.map (fun nd => (⟨nd.nodeId, nd.objId, []⟩ : LoadCell)) := by simp
    have e2 : (heap ++ [(⟨nd.nodeId, nd.objId, []⟩ : LoadCell)]).length =
        heap.length + 1 := by simp
    have e3 : ln + 1 + rest.length + 1 = ln + (nd :: rest).length + 1 := by
      simp only [List.length_cons]
      omega
    rw [e1, e2, e3]
    rfl

/-- Mapping a function that fixes every element is the identity. -/
theorem map_eq_self_of_eq {β : Type} (g : β → β) :
    ∀ (l : List β), (∀ x ∈ l, g x = x) → l.map g = l := by
  intro l
  induction l with
  | nil => intro _; rfl
  | cons a as ih =>
    intro h
    simp only [List.map_cons]
    rw [h a (by simp), ih (fun x hx => h x (by simp [hx]))]

/-- Setting a slot to the value it already holds is a no-op. -/
theorem set_get?_self {β : Type} :
    ∀ (l : List β) (i : Nat) (x : β), l.get? i = some x → l.set i x = l := by
  intro l
  induction l with
  | nil => intro i x h; cases h
  | cons a as ih =>
    intro i x h
    cases i with
    | zero => cases h; rfl
    | succ n =>
      rw [List.get?_cons_succ] at h
      show a :: as.set n x = a :: as
      rw [ih n x h]

/-- The pass-1 friend loop appends, to cell `p` alone, the `ptrMapper`
image of the whole friend list. -/
theorem addFriendsRun_ok (N : Nat) (pm : List (Option Nat)) (ψ : Nat → Nat)
    (p : Nat) :
    ∀ (fr : List Nat) (heap : List LoadCell) (c : LoadCell),
      heap.get? p = some c →
      (∀ f ∈ fr, f < N ∧ pm.getD f none = some (ψ f)) →
      addFriendsRun N pm p fr heap =
        .ok (heap.set p { c with friendRefs := c.friendRefs ++ fr.map ψ }) := by
  intro fr
  induction fr with
  | nil =>
    intro heap c hc _
    show Except.ok heap = _
    rw [List.map_nil, List.append_nil]
    have : ({ c with friendRefs := c.friendRefs } : LoadCell) = c := rfl
    rw [this, set_get?_self heap p c hc]
  | cons f fr ih =>
    intro heap c hc hfr
    obtain ⟨hfN, hfψ⟩ := hfr f (by simp)
    unfold addFriendsRun
    rw [if_pos hfN]
    simp only [hfψ]
    have hstep : heapAddFriend heap p (ψ f) =
        heap.set p { c with friendRefs := c.friendRefs ++ [ψ f] } := by
      unfold heapAddFriend
      rw [hc]
    rw [hstep]
    obtain ⟨hlt, _⟩ := List.get?_eq_some.mp hc
    have hc' : (heap.set p { c with friendRefs := c.friendRefs ++ [ψ f] }).get? p =
        some { c with friendRefs := c.friendRefs ++ [ψ f] } :=
      List.get?_set_eq_of_lt _ hlt
    rw [ih _ _ hc' (fun x hx => hfr x (by simp [hx]))]
    rw [List.set_set]
    simp [List.append_assoc]

/-- Fact: `LoadIndex` pass 1 over the node lines written by `SaveIndex`,
starting from line position `j`: each remaining line rebinds the friend
pointers of its own heap cell, turning the zero-friend heap into the
fully loaded one.  `ptrMapper` already maps every id to its heap
position. -/
theorem loadScan_pass1 (dataIds : List Int) (elL : List MSWNode)
    (pm : List (Option Nat)) (tab : List (Int × Nat))
    (hbind : ∀ nd ∈ elL, nd.nodeId < dataIds.length ∧
      dataIds.getD nd.nodeId 0 = nd.objId)
    (hnodup : (elL.map (·.nodeId)).Nodup)
    (hfr : ∀ nd ∈ elL, ∀ f ∈ nd.friends, f ∈ elL.map (·.nodeId))
    (hpm : ∀ f ∈ elL.map (·.nodeId), pm.getD f none = some (posOfId f elL)) :
    ∀ (l : List MSWNode) (j : Nat), elL.drop j = l →
      ∀ (heap : List LoadCell) (tail : List FileLine) (ln : Nat),
      heap.length = elL.length →
      (∀ i, i < j → heap.get? i = (loadedCells elL).get? i) →
      (∀ i, j ≤ i → heap.get? i =
        ((loadedCells elL).get? i).map (fun c => { c with friendRefs := [] })) →
      loadScan dataIds true
        (l.map (fun nd => FileLine.nodeLine nd.nodeId nd.objId nd.friends) ++
          FileLine.blank :: tail) ⟨heap, pm, tab, ln⟩ =
      .ok (⟨loadedCells elL, pm, tab, ln + l.length + 1⟩, tail) := by
  intro l
  induction l with
  | nil =>
    intro j hdrop heap tail ln hlen h1 h2
    have hje : elL.length ≤ j := List.drop_eq_nil_iff_le.mp hdrop
    have hheap : heap = loadedCells elL := by
      apply List.ext
      intro i
      by_cases hij : i < j
      · exact h1 i hij
      · have hn : (loadedCells elL).get? i = none := by
          rw [List.get?_eq_none]
          unfold loadedCells
          rw [List.length_map]
          omega
        rw [h2 i (by omega), hn]
        rfl
    simp only [List.map_nil, List.nil_append]
    unfold loadScan
    rw [hheap]
    simp
  | cons nd rest ih =>
    intro j hdrop heap tail ln hlen h1 h2
    have hj : elL.get? j = some nd := by
      have hg := List.get?_drop elL j 0
      rw [hdrop] at hg
      simpa using hg.symm
    have hmem : nd ∈ elL := List.get?_mem hj
    obtain ⟨hb1, hb2⟩ := hbind nd hmem
    have hdrop' : elL.drop (j + 1) = rest := by
      have hd : elL.drop (j + 1) = (elL.drop j).drop 1 := by
        rw [List.drop_drop]
      rw [hd, hdrop]
      rfl
    have hpos : posOfId nd.nodeId elL = j := posOfId_get? elL j nd hj hnodup
    have hpmnd : pm.getD nd.nodeId none = some j := by
      rw [hpm nd.nodeId (List.mem_map.mpr ⟨nd, hmem, rfl⟩), hpos]
    have hcellL : (loadedCells elL).get? j =
        some ⟨nd.nodeId, nd.objId, nd.friends.map (fun f => posOfId f elL)⟩ := by
      unfold loadedCells
      rw [List.get?_map, hj]
      rfl
    have hcell : heap.get? j = some ⟨nd.nodeId, nd.objId, []⟩ := by
      rw [h2 j (le_refl j), hcellL]
      rfl
    simp only [List.map_cons, List.cons_append]
    unfold loadScan
    rw [if_pos hb1, if_pos hb2, if_pos rfl]
    simp only [hpmnd]
    rw [addFriendsRun_ok dataIds.length pm (fun f => posOfId f elL) j nd.friends
      heap ⟨nd.nodeId, nd.objId, []⟩ hcell
      (fun f hf => by
        have hfm := hfr nd hmem f hf
        constructor
        · obtain ⟨nd', hnd', hid⟩ := List.mem_map.mp hfm
          exact hid ▸ (hbind nd' hnd').1
        · exact hpm f hfm)]
    simp only [List.nil_append]
    obtain ⟨hjlt, _⟩ := List.get?_eq_some.mp hj
    have hrec := ih (j + 1) hdrop'
      (heap.set j ⟨nd.nodeId, nd.objId, nd.friends.map (fun f => posOfId f elL)⟩)
      tail (ln + 1)
      (by rw [List.length_set]; exact hlen)
      (by
        intro i hi
        by_cases hij : i = j
        · subst hij
          rw [List.get?_set_eq_of_lt _ (by rw [hlen]; exact hjlt), hcellL]
        · rw [List.get?_set_ne _ _ (fun h => hij h.symm)]
          exact h1 i (by omega))
      (by
        intro i hi
        rw [List.get?_set_ne _ _ (by omega)]
        exact h2 i (by omega))
    rw [hrec]
    have e3 : ln + 1 + rest.length + 1 = ln + (nd :: rest).length + 1 := by
      simp only [List.length_cons]
      omega
    rw [e3]

/-- One `LoadIndex` pass over a well-formed file: headers check out, the
scan succeeds, and the declared line count matches the count read. -/
theorem loadPass_of_scan (dataIds : List Int) (pass1 : Bool) (NNv q : Nat)
    (body : List FileLine) (st0 st' : LoadSt)
    (hscan : loadScan dataIds pass1 body { st0 with lineNum := 3 } =
      .ok (st', [FileLine.lineQty q]))
    (hq : st'.lineNum = q) :
    loadPass dataIds pass1
      (FileLine.methodDesc methodName :: FileLine.nnField NNv :: body) st0 =
    .ok (st', NNv) := by
  unfold loadPass
  dsimp only
  rw [if_pos rfl, hscan]
  dsimp only
  rw [if_pos hq]

/-- Dereferencing the loaded heap undoes the pointer encoding: the loaded
cells, viewed through `getId`, are exactly the saved nodes. -/
theorem resolve_loadedCells (elL : List MSWNode)
    (hfr : ∀ nd ∈ elL, ∀ f ∈ nd.friends, f ∈ elL.map (·.nodeId)) :
    (loadedCells elL).map (resolveCell (loadedCells elL)) = elL := by
  apply List.ext
  intro i
  show ((loadedCells elL).map (resolveCell (loadedCells elL))).get? i = elL.get? i
  rw [List.get?_map]
  unfold loadedCells
  rw [List.get?_map]
  cases hi : elL.get? i with
  | none => rfl
  | some nd =>
    simp only [Option.map_some']
    congr 1
    unfold resolveCell
    cases nd with
    | mk id obj fr =>
      simp only
      congr 1
      rw [List.map_map]
      have hmem : (⟨id, obj, fr⟩ : MSWNode) ∈ elL := List.get?_mem hi
      have hone : ∀ f ∈ fr, cellIdAt (elL.map fun nd =>
          (⟨nd.nodeId, nd.objId, nd.friends.map fun f => posOfId f elL⟩ : LoadCell))
          (posOfId f elL) = f := by
        intro f hf
        obtain ⟨nd', h1, h2⟩ := get?_posOfId f elL (hfr _ hmem f hf)
        unfold cellIdAt
        rw [List.get?_map, h1]
        exact h2
      exact map_eq_self_of_eq _ fr hone

/-- Claim C1: saving an index over a data sequence and loading the file
into a fresh index over the same data sequence succeeds (in particular
the trailing line count written by `SaveIndex` equals the count
`LoadIndex` computes) and reconstructs the graph exactly: one heap cell
per saved node in table order carrying the same `(internal_id, obj_id)`
binding and, once friend pointers are dereferenced, the same friend list
(hence the same friend multiset), and the rebuilt `ElList_` maps each
object id to its node.  The hypotheses state well-formedness of the
saving index: ids bound to the data sequence, distinct ids, table in
`std::map` (ascending object id) order, and friend pointers into the
table. -/
theorem C1_save_then_load_round_trip (dataIds : List Int) (elL : List MSWNode)
    (NNv : Nat)
    (hbind : ∀ nd ∈ elL, nd.nodeId < dataIds.length ∧
      dataIds.getD nd.nodeId 0 = nd.objId)
    (hnodup : (elL.map (·.nodeId)).Nodup)
    (hkeys : List.Pairwise (fun a b : MSWNode => a.objId < b.objId) elL)
    (hfr : ∀ nd ∈ elL, ∀ f ∈ nd.friends, f ∈ elL.map (·.nodeId)) :
    ∃ lines st, saveIndex dataIds.length NNv elL = .ok lines ∧
      loadIndex dataIds lines = .ok (st, NNv) ∧
      st.heap = loadedCells elL ∧
      st.elTab = enumTab 0 elL ∧
      st.heap.map (resolveCell st.heap) = elL := by
  have hfrN : ∀ nd ∈ elL, ∀ f ∈ nd.friends, f < dataIds.length := by
    intro nd hnd f hf
    obtain ⟨nd', h1, h2⟩ := List.mem_map.mp (hfr nd hnd f hf)
    exact h2 ▸ (hbind nd' h1).1
  have hsave := saveNodeLines_ok dataIds.length elL
    (fun nd hnd => ⟨(hbind nd hnd).1, hfrN nd hnd⟩)
  have hsaveI : saveIndex dataIds.length NNv elL =
      .ok (FileLine.methodDesc methodName :: FileLine.nnField NNv ::
        (elL.map (fun nd => FileLine.nodeLine nd.nodeId nd.objId nd.friends) ++
          FileLine.blank :: [FileLine.lineQty (elL.length + 4)])) := by
    unfold saveIndex
    rw [hsave]
    simp
  have hpm0 : (List.replicate dataIds.length (none : Option Nat)).length =
      dataIds.length := List.length_replicate _ _
  have hscan0 := loadScan_pass0 dataIds elL [FileLine.lineQty (elL.length + 4)]
    [] (List.replicate dataIds.length none) [] 3 hbind
  have hpass0 : loadPass dataIds false
      (FileLine.methodDesc methodName :: FileLine.nnField NNv ::
        (elL.map (fun nd => FileLine.nodeLine nd.nodeId nd.objId nd.friends) ++
          FileLine.blank :: [FileLine.lineQty (elL.length + 4)]))
      ⟨[], List.replicate dataIds.length none, [], 1⟩ =
      .ok (⟨elL.map (fun nd => ⟨nd.nodeId, nd.objId, []⟩),
            pass0Ptr (List.replicate dataIds.length none) 0 elL,
            pass0Tab [] 0 elL, 3 + elL.length + 1⟩, NNv) := by
    apply loadPass_of_scan
    · exact hscan0
    · show 3 + elL.length + 1 = elL.length + 4
      omega
  have hpmlook : ∀ f ∈ elL.map (·.nodeId),
      (pass0Ptr (List.replicate dataIds.length none) 0 elL).getD f none =
        some (posOfId f elL) := by
    intro f hf
    rw [pass0Ptr_getD_mem elL _ 0 f hf hnodup
      (fun nd hnd => by rw [hpm0]; exact (hbind nd hnd).1)]
    simp
  have hscan1 := loadScan_pass1 dataIds elL
    (pass0Ptr (List.replicate dataIds.length none) 0 elL)
    (pass0Tab [] 0 elL) hbind hnodup hfr hpmlook elL 0 rfl
    (elL.map (fun nd => ⟨nd.nodeId, nd.objId, []⟩))
    [FileLine.lineQty (elL.length + 4)] 3
    (List.length_map _ _)
    (fun i hi => absurd hi (by omega))
    (fun i _ => by
      unfold loadedCells
      rw [List.get?_map, List.get?_map]
      cases elL.get? i <;> rfl)
  have hpass1 : loadPass dataIds true
      (FileLine.methodDesc methodName :: FileLine.nnField NNv ::
        (elL.map (fun nd => FileLine.nodeLine nd.nodeId nd.objId nd.friends) ++
          FileLine.blank :: [FileLine.lineQty (elL.length + 4)]))
      ⟨elL.map (fun nd => ⟨nd.nodeId, nd.objId, []⟩),
        pass0Ptr (List.replicate dataIds.length none) 0 elL,
        pass0Tab [] 0 elL, 1⟩ =
      .ok (⟨loadedCells elL,
            pass0Ptr (List.replicate dataIds.length none) 0 elL,
            pass0Tab [] 0 elL, 3 + elL.length + 1⟩, NNv) := by
    apply loadPass_of_scan
    · exact hscan1
    · show 3 + elL.length + 1 = elL.length + 4
      omega
  refine ⟨_, ⟨loadedCells elL,
      pass0Ptr (List.replicate dataIds.length none) 0 elL,
      pass0Tab [] 0 elL, 3 + elL.length + 1⟩, hsaveI, ?_, rfl, ?_, ?_⟩
  · unfold loadIndex
    dsimp only
    rw [hpass0]
    dsimp only
    rw [hpass1]
  · show pass0Tab [] 0 elL = enumTab 0 elL
    rw [pass0Tab_spec elL [] 0 hkeys (fun p hp => absurd hp (List.not_mem_nil p))]
    rfl
  · exact resolve_loadedCells elL hfr

/-- Witness for C1 on the concrete two-node table over the data sequence
with object ids 5 and 7. -/
theorem C1_save_then_load_round_trip_witness :
    ((∀ nd ∈ twoNodeTable, nd.nodeId < ([5, 7] : List Int).length ∧
        ([5, 7] : List Int).getD nd.nodeId 0 = nd.objId) ∧
      (twoNodeTable.map (·.nodeId)).Nodup ∧
      List.Pairwise (fun a b : MSWNode => a.objId < b.objId) twoNodeTable ∧
      (∀ nd ∈ twoNodeTable, ∀ f ∈ nd.friends, f ∈ twoNodeTable.map (·.nodeId))) ∧
    (∃ lines st, saveIndex ([5, 7] : List Int).length 10 twoNodeTable = .ok lines ∧
      loadIndex [5, 7] lines = .ok (st, 10) ∧
      st.heap = loadedCells twoNodeTable ∧
      st.elTab = enumTab 0 twoNodeTable ∧
      st.heap.map (resolveCell st.heap) = twoNodeTable) :=
  ⟨⟨by decide, by decide, by decide, by decide⟩,
    C1_save_then_load_round_trip [5, 7] twoNodeTable 10
      (by decide) (by decide) (by decide) (by decide)⟩

/-- Witness for C4 on a concrete query against the two-node index. -/
theorem C4_v1merge_cursor_check_never_fires_witness :
    searchV1Merge (adjOf twoNodeTable) (fun i => (i : Int) + 2) 2 (some 0) 1 2 ≠
      .error .checkUsedFailed :=
  C4_v1merge_cursor_check_never_fires (adjOf twoNodeTable)
    (fun i => (i : Int) + 2) 2 (some 0) 1 2

/-- Witness for C5 on a concrete query against the two-node index. -/
theorem C5_searchold_offers_every_computed_node_once_witness :
    (searchOld (adjOf twoNodeTable) (fun i => (i : Int) + 3) 2 (some 0) 2).offers.map
        Prod.snd =
      (searchOld (adjOf twoNodeTable) (fun i => (i : Int) + 3) 2 (some 0) 2).computed ∧
    (searchOld (adjOf twoNodeTable) (fun i => (i : Int) + 3) 2
      (some 0) 2).computed.Nodup :=
  C5_searchold_offers_every_computed_node_once (adjOf twoNodeTable)
    (fun i => (i : Int) + 3) 2 (some 0) 2

/-- Witness for C9 on concrete searches against the two-node index. -/
theorem C9_search_loops_terminate_witness :
    searchForIndexing (adjOf twoNodeTable) (fun i => (i : Int) + 4) (some 0) 1 1 1 ≠
      .error .fuelOut ∧
    (searchOld (adjOf twoNodeTable) (fun i => (i : Int) + 4) 2 (some 0) 1).err ≠
      some .fuelOut ∧
    searchV1Merge (adjOf twoNodeTable) (fun i => (i : Int) + 4) 2 (some 0) 1 1 ≠
      .error .fuelOut :=
  C9_search_loops_terminate (adjOf twoNodeTable) (fun i => (i : Int) + 4)
    (some 0) 1 1 1 2 1 1

end SWRand
